import Mathlib

/-!
Shallow embedding of the `MemoryManager` class of `src/app.py` (a paging
simulator with FIFO and LRU replacement), together with proofs of the
specification's claims about it.

Modelling conventions:

* Python's `time.time()` is modelled as a logical clock (`clock : Nat`)
  stored in the manager state; every call of `time.time()` in the source
  returns the current clock value and advances it by one.  This keeps the
  source's guarantee that successive timestamps are monotone.
* Python dicts are modelled as association lists in insertion order
  (which is exactly the iteration order of a Python dict); assignment
  `d[k] = v` updates in place when the key is present and appends
  otherwise (`dictSet`), and `del d[k]` removes the entry with that key
  (`dictDel`; keys of the modelled dicts are unique, so removing every
  entry with the key equals removing the single one).
* The page-table keys are the strings `"P{pid}-{page_num}"`.  For natural
  pid and page number this string encoding is injective, and the
  `startswith("P{pid}-")` test in `remove_process` holds exactly when the
  key's pid component equals `pid`; the embedding therefore uses the pair
  `(pid, page_num)` as the key.
* The `algorithm` argument is the string `'fifo'` or anything else (the
  source treats every non-`'fifo'` string as LRU), modelled by the
  two-valued type `Algo`.
* The hue formula `(pid * 137) % 360` of the CSS color string created in
  `create_process` is kept as a `Nat`; the rest of the color string is
  determined by it.
* The hit test of the source is `key in page_table and
  page_table[key]['frame_num'] is not None`; every entry ever stored in
  `page_table` has a numeric `frame_num`, so the second conjunct is
  vacuous and `frame_num` is modelled as a `Nat`.
-/

/-- Content of an occupied physical frame: `{'pid': .., 'page_num': .., 'color': ..}`. -/
structure Frame where
  pid : Nat
  page_num : Nat
  color : Nat
deriving DecidableEq, Repr, Inhabited

/-- A page-table entry: `{'frame_num': .., 'alloc_time': .., 'last_used': ..}`. -/
structure PTE where
  frame_num : Nat
  alloc_time : Nat
  last_used : Nat
deriving DecidableEq, Repr, Inhabited

/-- A process descriptor as built by `create_process`; `pages` is the list of
`{'page_num': i, 'frame_num': None}` records. -/
structure Process where
  pid : Nat
  size : Nat
  pages : List (Nat × Option Nat)
  color : Nat
deriving DecidableEq, Repr, Inhabited

/-- The messages written by `add_log`, kept structured instead of formatted. -/
inductive LogMsg where
  | created (pid size : Nat)
  | pageHit (pid page : Nat)
  | evicting (pid page : Nat)
  | allocated (pid page frame : Nat)
  | terminated (pid : Nat)
deriving DecidableEq, Repr

/-- One log record: `{'timestamp': time.time(), 'message': ...}`. -/
structure LogEntry where
  timestamp : Nat
  message : LogMsg
deriving DecidableEq, Repr

/-- The replacement policy: the source compares the `algorithm` string with
`'fifo'` and treats everything else as LRU. -/
inductive Algo where
  | fifo
  | lru
deriving DecidableEq, Repr

/-- Result of `allocate_page`: `{'success': True, 'hit': b}` or
`{'success': False, 'error': ...}` with the two error strings the source
can produce. -/
inductive AllocResult where
  | hit
  | fault
  | processNotFound
  | noFramesAvailable
deriving DecidableEq, Repr

/-- Result of `remove_process`. -/
inductive RemoveResult where
  | ok
  | processNotFound
deriving DecidableEq, Repr

/-- The full state of a `MemoryManager` instance. -/
structure MemoryManager where
  memory_size : Nat
  memory : List (Option Frame)
  page_table : List ((Nat × Nat) × PTE)
  processes : List (Nat × Process)
  process_counter : Nat
  allocation_queue : List Nat
  stats_faults : Nat
  stats_hits : Nat
  logs : List LogEntry
  clock : Nat
deriving DecidableEq, Repr

/-- Python dict lookup `d.get(k)` / `d[k]` on an association list. -/
def dictGet {κ β : Type} [DecidableEq κ] (d : List (κ × β)) (k : κ) : Option β :=
  (d.find? (fun p => p.1 = k)).map (·.2)

/-- Python dict assignment `d[k] = v`: update in place when present, append
otherwise. -/
def dictSet {κ β : Type} [DecidableEq κ] (d : List (κ × β)) (k : κ) (v : β) :
    List (κ × β) :=
  if (dictGet d k).isSome then
    d.map (fun p => if p.1 = k then (k, v) else p)
  else
    d ++ [(k, v)]

/-- Python `del d[k]` on an association list with unique keys. -/
def dictDel {κ β : Type} [DecidableEq κ] (d : List (κ × β)) (k : κ) : List (κ × β) :=
  d.filter (fun p => ¬ p.1 = k)

/-- Construction: `MemoryManager.__init__(memory_size)`. -/
def mkManager (memory_size : Nat) : MemoryManager where
  memory_size := memory_size
  memory := List.replicate memory_size none
  page_table := []
  processes := []
  process_counter := 1
  allocation_queue := []
  stats_faults := 0
  stats_hits := 0
  logs := []
  clock := 0

/-- The method `add_log`: append a timestamped message and trim the log to at
most 50 entries by popping the front. -/
def add_log (m : MemoryManager) (msg : LogMsg) : MemoryManager :=
  let logs := m.logs ++ [⟨m.clock, msg⟩]
  let logs := if logs.length > 50 then logs.tail else logs
  { m with logs := logs, clock := m.clock + 1 }

/-- The method `create_process`; the page count (drawn by `random.randint(2, 4)`
in the source) is passed in as the externally supplied randomness. -/
def create_process (m : MemoryManager) (size : Nat) : Process × MemoryManager :=
  let pid := m.process_counter
  let color := (pid * 137) % 360
  let process : Process :=
    { pid := pid, size := size
      pages := (List.range size).map (fun i => (i, none))
      color := color }
  let m := { m with
    processes := dictSet m.processes pid process
    process_counter := m.process_counter + 1 }
  let m := add_log m (.created pid size)
  (process, m)

/-- The method `find_free_frame`: index of the first `None` slot, `-1` (here
`none`) when memory is full. -/
def find_free_frame : List (Option Frame) → Option Nat
  | [] => none
  | none :: _ => some 0
  | some _ :: rest => (find_free_frame rest).map (· + 1)

/-- The method `find_victim_fifo`: head of the allocation queue, `-1` (here
`none`) when the queue is empty. -/
def find_victim_fifo (m : MemoryManager) : Option Nat :=
  m.allocation_queue.head?

/-- Loop body of `find_victim_lru`: fold over the page table keeping the entry
with the strictly smallest `last_used` seen so far (initial best is
`float('inf')`, modelled by `none`). -/
def find_victim_lru_go : List ((Nat × Nat) × PTE) → Option (Nat × Nat) → Option (Nat × Nat)
  | [], acc => acc
  | kv :: rest, acc =>
    let better : Bool :=
      match acc with
      | none => true
      | some (t, _) => kv.2.last_used < t
    find_victim_lru_go rest (if better then some (kv.2.last_used, kv.2.frame_num) else acc)

/-- The method `find_victim_lru`: frame of the page-table entry with minimum
`last_used` (first such entry in iteration order), `none` when the table is
empty. -/
def find_victim_lru (m : MemoryManager) : Option Nat :=
  (find_victim_lru_go m.page_table none).map Prod.snd

/-- Eviction block of `allocate_page` (lines 91-108 of the source): find the
page-table entry occupying `frame_num`, log the eviction, remove the frame
from the FIFO queue when the policy is FIFO, and delete the entry.  When no
entry occupies the frame (`victim_key` stays `None`) nothing happens. -/
def evict (m : MemoryManager) (algorithm : Algo) (frame_num : Nat) : MemoryManager :=
  match m.page_table.find? (fun kv => kv.2.frame_num == frame_num) with
  | none => m
  | some vkv =>
    let m := add_log m (.evicting vkv.1.1 vkv.1.2)
    let m := if algorithm = .fifo then
        { m with allocation_queue := m.allocation_queue.erase frame_num }
      else m
    { m with page_table := m.page_table.filter (fun kv => ¬ kv.1 = vkv.1) }

/-- Allocation tail of `allocate_page` (lines 110-129): write the frame, create
the page-table entry with `alloc_time = last_used = time.time()`, push the
frame on the FIFO queue when the policy is FIFO, and log.  The `processes[pid]`
lookup cannot fail here because `allocate_page` already checked membership
(and nothing in between touches `processes`). -/
def finishAlloc (m : MemoryManager) (pid page_num : Nat) (algorithm : Algo)
    (frame_num : Nat) : MemoryManager :=
  let process := (dictGet m.processes pid).getD default
  let m := { m with memory := m.memory.set frame_num (some ⟨pid, page_num, process.color⟩) }
  let m := { m with
    page_table := dictSet m.page_table (pid, page_num)
      ⟨frame_num, m.clock, m.clock⟩
    clock := m.clock + 1 }
  let m := if algorithm = .fifo then
      { m with allocation_queue := m.allocation_queue ++ [frame_num] }
    else m
  add_log m (.allocated pid page_num frame_num)

/-- In-place update `self.page_table[key]['last_used'] = time.time()` performed
on a hit: the entry keeps its position and its other fields. -/
def hitUpdate (d : List ((Nat × Nat) × PTE)) (k : Nat × Nat) (t : Nat) :
    List ((Nat × Nat) × PTE) :=
  d.map (fun kv => if kv.1 = k then (kv.1, { kv.2 with last_used := t }) else kv)

/-- Victim selection on a fault: `find_victim_fifo` when the algorithm string
is `'fifo'`, else `find_victim_lru`. -/
def pickVictim (m : MemoryManager) (algorithm : Algo) : Option Nat :=
  match algorithm with
  | .fifo => find_victim_fifo m
  | .lru => find_victim_lru m

/-- Fault branch of `allocate_page` (after the fault counter was incremented):
use a free frame if one exists, otherwise evict the policy's victim; when no
victim exists either, return the `'No frames available'` error. -/
def faultAlloc (m : MemoryManager) (pid page_num : Nat) (algorithm : Algo) :
    AllocResult × MemoryManager :=
  match find_free_frame m.memory with
  | some frame_num => (.fault, finishAlloc m pid page_num algorithm frame_num)
  | none =>
    match pickVictim m algorithm with
    | none => (.noFramesAvailable, m)
    | some frame_num =>
      (.fault, finishAlloc (evict m algorithm frame_num) pid page_num algorithm frame_num)

/-- The method `allocate_page` (called `access_page` in the specification). -/
def allocate_page (m : MemoryManager) (pid page_num : Nat) (algorithm : Algo) :
    AllocResult × MemoryManager :=
  if (dictGet m.processes pid).isNone then
    (.processNotFound, m)
  else
    match dictGet m.page_table (pid, page_num) with
    | some _ =>
      let m := { m with stats_hits := m.stats_hits + 1 }
      let m := { m with
        page_table := hitUpdate m.page_table (pid, page_num) m.clock
        clock := m.clock + 1 }
      let m := add_log m (.pageHit pid page_num)
      (.hit, m)
    | none =>
      faultAlloc { m with stats_faults := m.stats_faults + 1 } pid page_num algorithm

/-- One iteration of the frame-freeing loop of `remove_process` at index `i`:
when the frame is occupied by `pid`, remove `i` from the FIFO queue if present
and clear the frame. -/
def freeFrameStep (pid : Nat) (m : MemoryManager) (i : Nat) : MemoryManager :=
  match m.memory.getD i none with
  | some fr =>
    if fr.pid = pid then
      let q := if i ∈ m.allocation_queue then m.allocation_queue.erase i
        else m.allocation_queue
      { m with allocation_queue := q, memory := m.memory.set i none }
    else m
  | none => m

/-- The frame-freeing loop `for i in range(len(self.memory)): ...` of
`remove_process`, over an explicit list of indices. -/
def freeFrames (pid : Nat) (is_ : List Nat) (m : MemoryManager) : MemoryManager :=
  match is_ with
  | [] => m
  | i :: rest => freeFrames pid rest (freeFrameStep pid m i)

/-- The method `remove_process`. -/
def remove_process (m : MemoryManager) (pid : Nat) : RemoveResult × MemoryManager :=
  if (dictGet m.processes pid).isNone then
    (.processNotFound, m)
  else
    let m := freeFrames pid (List.range m.memory.length) m
    let m := { m with page_table := m.page_table.filter (fun kv => ¬ kv.1.1 = pid) }
    let m := { m with processes := dictDel m.processes pid }
    let m := add_log m (.terminated pid)
    (.ok, m)

/-- The read-only projection returned by `get_state` (the specification's
`snapshot()`). -/
structure Snapshot where
  memory : List (Option Frame)
  processes : List Process
  stats_faults : Nat
  stats_hits : Nat
  logs : List LogEntry
deriving DecidableEq, Repr

/-- The method `get_state`: frames, process descriptors in insertion order,
statistics, and the last 10 log entries. -/
def get_state (m : MemoryManager) : Snapshot where
  memory := m.memory
  processes := m.processes.map (·.2)
  stats_faults := m.stats_faults
  stats_hits := m.stats_hits
  logs := m.logs.drop (m.logs.length - 10)

/-- The method `reset`: `self.__init__(self.memory_size)`.  The logical clock
models wall-clock time, which a reset does not rewind, so it is carried over;
it is not part of the Python object's state. -/
def reset (m : MemoryManager) : MemoryManager :=
  { mkManager m.memory_size with clock := m.clock }

/-- One operation of the manager's external interface, for reasoning about
operation sequences.  `create` carries the externally chosen page count. -/
inductive Op where
  | create (size : Nat)
  | access (pid page : Nat) (algorithm : Algo)
  | remove (pid : Nat)
  | reset
deriving DecidableEq, Repr

/-- Apply one operation, dropping the returned value. -/
def applyOp (m : MemoryManager) : Op → MemoryManager
  | .create size => (create_process m size).2
  | .access pid page a => (allocate_page m pid page a).2
  | .remove pid => (remove_process m pid).2
  | .reset => reset m

/-- Run a sequence of operations on a freshly constructed manager with
`memory_size = F`. -/
def runOps (F : Nat) (ops : List Op) : MemoryManager :=
  ops.foldl applyOp (mkManager F)

/-- Run a list of page accesses under one policy, collecting the results. -/
def runTrace (m : MemoryManager) (algorithm : Algo) :
    List (Nat × Nat) → List AllocResult × MemoryManager
  | [] => ([], m)
  | k :: rest =>
    let r := allocate_page m k.1 k.2 algorithm
    let t := runTrace r.2 algorithm rest
    (r.1 :: t.1, t.2)

/-! ### Association-list (Python dict) lemmas -/

theorem dictGet_eq_none {κ β : Type} [DecidableEq κ] {d : List (κ × β)} {k : κ} :
    dictGet d k = none ↔ ∀ kv ∈ d, kv.1 ≠ k := by
  simp [dictGet, List.find?_eq_none]

theorem dictGet_isSome {κ β : Type} [DecidableEq κ] {d : List (κ × β)} {k : κ} :
    (dictGet d k).isSome ↔ ∃ kv ∈ d, kv.1 = k := by
  rw [← not_iff_not, Option.not_isSome_iff_eq_none, dictGet_eq_none]
  push_neg
  rfl

theorem dictGet_cons {κ β : Type} [DecidableEq κ] {kv : κ × β} {d : List (κ × β)} {k : κ} :
    dictGet (kv :: d) k = if kv.1 = k then some kv.2 else dictGet d k := by
  by_cases h : kv.1 = k <;> simp [dictGet, List.find?_cons, h]

theorem dictGet_append_self {κ β : Type} [DecidableEq κ] {d : List (κ × β)} {k : κ} {v : β}
    (h : dictGet d k = none) : dictGet (d ++ [(k, v)]) k = some v := by
  induction d with
  | nil => simp [dictGet]
  | cons kv rest ih =>
    rw [dictGet_eq_none] at h
    have h1 : kv.1 ≠ k := h kv (List.mem_cons_self kv rest)
    have h2 : dictGet rest k = none := by
      rw [dictGet_eq_none]
      exact fun x hx => h x (List.mem_cons_of_mem kv hx)
    rw [List.cons_append, dictGet_cons, if_neg h1]
    exact ih h2

theorem dictGet_hitUpdate_self {d : List ((Nat × Nat) × PTE)} {k : Nat × Nat} {t : Nat} :
    dictGet (hitUpdate d k t) k = (dictGet d k).map (fun e => { e with last_used := t }) := by
  induction d with
  | nil => simp [dictGet, hitUpdate]
  | cons kv rest ih =>
    by_cases h : kv.1 = k
    · simp [hitUpdate, dictGet_cons, h]
    · simp only [hitUpdate, List.map_cons, if_neg h] at *
      rw [dictGet_cons, if_neg h, dictGet_cons, if_neg h, ih]

theorem dictGet_dictSet_self {κ β : Type} [DecidableEq κ] {d : List (κ × β)} {k : κ} {v : β} :
    dictGet (dictSet d k v) k = some v := by
  unfold dictSet
  split
  · rename_i hs
    induction d with
    | nil => simp [dictGet] at hs
    | cons kv rest ih =>
      by_cases h : kv.1 = k
      · simp [dictGet_cons, h]
      · rw [dictGet_cons, if_neg h] at hs
        simp only [List.map_cons, if_neg h]
        rw [dictGet_cons, if_neg h]
        exact ih hs
  · rename_i hs
    exact dictGet_append_self (Option.not_isSome_iff_eq_none.mp hs)

/-! ### Claim C1 -/

/-- Helper: the fault branch either allocates (result `Fault`) or fails with
`NoFramesAvailable` leaving its input state untouched. -/
theorem faultAlloc_cases (m : MemoryManager) (pid pg : Nat) (a : Algo) :
    (faultAlloc m pid pg a).1 = .fault
    ∨ ((faultAlloc m pid pg a).1 = .noFramesAvailable ∧ (faultAlloc m pid pg a).2 = m) := by
  unfold faultAlloc
  cases h1 : find_free_frame m.memory with
  | some f => exact Or.inl rfl
  | none =>
    cases h2 : pickVictim m a with
    | none => exact Or.inr ⟨rfl, rfl⟩
    | some f => exact Or.inl rfl

/-- Helper: complete case analysis of the outcome of `allocate_page` together
with the state left behind on each error outcome. -/
theorem allocate_page_cases (m : MemoryManager) (pid pg : Nat) (a : Algo) :
    ((allocate_page m pid pg a).1 = .processNotFound ∧ (allocate_page m pid pg a).2 = m)
    ∨ (allocate_page m pid pg a).1 = .hit
    ∨ (allocate_page m pid pg a).1 = .fault
    ∨ ((allocate_page m pid pg a).1 = .noFramesAvailable
        ∧ (allocate_page m pid pg a).2 = { m with stats_faults := m.stats_faults + 1 }) := by
  unfold allocate_page
  by_cases hp : (dictGet m.processes pid).isNone
  · rw [if_pos hp]
    exact Or.inl ⟨rfl, rfl⟩
  · rw [if_neg hp]
    cases hpt : dictGet m.page_table (pid, pg) with
    | some e => exact Or.inr (Or.inl rfl)
    | none =>
      rcases faultAlloc_cases { m with stats_faults := m.stats_faults + 1 } pid pg a with
        h | ⟨h1, h2⟩
      · exact Or.inr (Or.inr (Or.inl h))
      · exact Or.inr (Or.inr (Or.inr ⟨h1, h2⟩))

/-- Helper: `remove_process` on an unknown pid returns the error without
touching the state. -/
theorem remove_process_cases (m : MemoryManager) (pid : Nat) :
    ((remove_process m pid).1 = .processNotFound ∧ (remove_process m pid).2 = m)
    ∨ (remove_process m pid).1 = .ok := by
  unfold remove_process
  split
  · exact Or.inl ⟨rfl, rfl⟩
  · exact Or.inr rfl

/-- C1 (amended): an operation that returns `ProcessNotFound` leaves the
manager's state exactly as it was; `access_page` returning `NoFramesAvailable`
leaves every component unchanged except the page-fault counter, which it has
already incremented. -/
theorem c1_error_no_partial_mutation (m : MemoryManager) (pid pg : Nat) (a : Algo) :
    ((allocate_page m pid pg a).1 = .processNotFound → (allocate_page m pid pg a).2 = m)
    ∧ ((allocate_page m pid pg a).1 = .noFramesAvailable →
        (allocate_page m pid pg a).2 = { m with stats_faults := m.stats_faults + 1 })
    ∧ ((remove_process m pid).1 = .processNotFound → (remove_process m pid).2 = m) := by
  refine ⟨?_, ?_, ?_⟩
  · intro h
    rcases allocate_page_cases m pid pg a with ⟨_, h2⟩ | h1 | h1 | ⟨h1, _⟩ <;>
      first | exact h2 | (rw [h] at h1; cases h1)
  · intro h
    rcases allocate_page_cases m pid pg a with ⟨h1, _⟩ | h1 | h1 | ⟨_, h2⟩ <;>
      first | exact h2 | (rw [h] at h1; cases h1)
  · intro h
    rcases remove_process_cases m pid with ⟨_, h2⟩ | h1
    · exact h2
    · rw [h] at h1; cases h1

/-- C1 witness: on a fresh manager with one frame, `access_page` and
`remove_process` with an unknown pid leave the state unchanged; on a manager
with zero frames, `access_page` on an existing process returns
`NoFramesAvailable` with only the fault counter bumped. -/
theorem c1_error_no_partial_mutation_witness :
    ((allocate_page (mkManager 1) 7 0 .fifo).1 = .processNotFound
      ∧ (allocate_page (mkManager 1) 7 0 .fifo).2 = mkManager 1)
    ∧ ((remove_process (mkManager 1) 7).1 = .processNotFound
      ∧ (remove_process (mkManager 1) 7).2 = mkManager 1)
    ∧ ((allocate_page (runOps 0 [.create 2]) 1 0 .fifo).1 = .noFramesAvailable
      ∧ (allocate_page (runOps 0 [.create 2]) 1 0 .fifo).2
          = { runOps 0 [.create 2] with stats_faults := (runOps 0 [.create 2]).stats_faults + 1 }) :=
  ⟨⟨by decide, (c1_error_no_partial_mutation (mkManager 1) 7 0 .fifo).1 (by decide)⟩,
   ⟨by decide, (c1_error_no_partial_mutation (mkManager 1) 7 0 .fifo).2.2 (by decide)⟩,
   ⟨by decide, (c1_error_no_partial_mutation (runOps 0 [.create 2]) 1 0 .fifo).2.1 (by decide)⟩⟩

/-- C1 counterexample: the claim as stated is false — on a manager with zero
frames (and similarly whenever no free frame and no victim exist),
`access_page` returns `NoFramesAvailable` but has already incremented the
page-fault counter, so the state is not left exactly as it was. -/
theorem c1_counterexample :
    (allocate_page (runOps 0 [.create 2]) 1 0 .fifo).1 = .noFramesAvailable
    ∧ (allocate_page (runOps 0 [.create 2]) 1 0 .fifo).2 ≠ runOps 0 [.create 2] := by
  constructor
  · decide
  · decide

/-! ### Claim C8 -/

/-- C8: `reset()` re-runs `__init__` with the stored frame count, so a reset
manager agrees with a freshly constructed one with the same frame count on the
snapshot and on every stored component (frames, page table, processes, process
counter, FIFO queue, statistics, and log). -/
theorem c8_reset_eq_fresh (m : MemoryManager) :
    get_state (reset m) = get_state (mkManager m.memory_size)
    ∧ (reset m).memory_size = (mkManager m.memory_size).memory_size
    ∧ (reset m).memory = (mkManager m.memory_size).memory
    ∧ (reset m).page_table = (mkManager m.memory_size).page_table
    ∧ (reset m).processes = (mkManager m.memory_size).processes
    ∧ (reset m).process_counter = (mkManager m.memory_size).process_counter
    ∧ (reset m).allocation_queue = (mkManager m.memory_size).allocation_queue
    ∧ (reset m).stats_faults = (mkManager m.memory_size).stats_faults
    ∧ (reset m).stats_hits = (mkManager m.memory_size).stats_hits
    ∧ (reset m).logs = (mkManager m.memory_size).logs :=
  ⟨rfl, rfl, rfl, rfl, rfl, rfl, rfl, rfl, rfl, rfl⟩

/-! ### Claim C6 -/

theorem add_log_processes (m : MemoryManager) (msg : LogMsg) :
    (add_log m msg).processes = m.processes := rfl

theorem add_log_page_table (m : MemoryManager) (msg : LogMsg) :
    (add_log m msg).page_table = m.page_table := rfl

theorem finishAlloc_processes (m : MemoryManager) (pid pg : Nat) (a : Algo) (f : Nat) :
    (finishAlloc m pid pg a f).processes = m.processes := by
  unfold finishAlloc add_log
  cases a <;> rfl

theorem finishAlloc_page_table (m : MemoryManager) (pid pg : Nat) (a : Algo) (f : Nat) :
    (finishAlloc m pid pg a f).page_table
      = dictSet m.page_table (pid, pg) ⟨f, m.clock, m.clock⟩ := by
  unfold finishAlloc add_log
  cases a <;> rfl

theorem evict_processes (m : MemoryManager) (a : Algo) (f : Nat) :
    (evict m a f).processes = m.processes := by
  unfold evict
  cases h : m.page_table.find? (fun kv => kv.2.frame_num == f) with
  | none => rfl
  | some vkv => cases a <;> rfl

theorem evict_clock (m : MemoryManager) (a : Algo) (f : Nat) :
    (evict m a f).clock = m.clock
    ∨ (evict m a f).clock = m.clock + 1 := by
  unfold evict
  cases h : m.page_table.find? (fun kv => kv.2.frame_num == f) with
  | none => exact Or.inl rfl
  | some vkv => cases a <;> exact Or.inr rfl

theorem faultAlloc_processes (m : MemoryManager) (pid pg : Nat) (a : Algo) :
    (faultAlloc m pid pg a).2.processes = m.processes := by
  unfold faultAlloc
  cases h1 : find_free_frame m.memory with
  | some f => exact finishAlloc_processes m pid pg a f
  | none =>
    cases h2 : pickVictim m a with
    | none => rfl
    | some f => rw [finishAlloc_processes, evict_processes]

/-- Helper: `allocate_page` never modifies the process table. -/
theorem allocate_page_processes (m : MemoryManager) (pid pg : Nat) (a : Algo) :
    (allocate_page m pid pg a).2.processes = m.processes := by
  unfold allocate_page
  by_cases hp : (dictGet m.processes pid).isNone
  · rw [if_pos hp]
  · rw [if_neg hp]
    cases hpt : dictGet m.page_table (pid, pg) with
    | some e => rfl
    | none => exact faultAlloc_processes _ pid pg a

/-- Helper: after a successful access (`Hit` or `Fault`), the accessed page is
resident. -/
theorem allocate_page_resident (m : MemoryManager) (pid pg : Nat) (a : Algo)
    (h : (allocate_page m pid pg a).1 = .hit ∨ (allocate_page m pid pg a).1 = .fault) :
    (dictGet (allocate_page m pid pg a).2.page_table (pid, pg)).isSome := by
  unfold allocate_page at *
  by_cases hp : (dictGet m.processes pid).isNone
  · rw [if_pos hp] at h
    rcases h with h | h <;> cases h
  · rw [if_neg hp] at *
    cases hpt : dictGet m.page_table (pid, pg) with
    | some e =>
      show (dictGet (add_log _ _).page_table (pid, pg)).isSome
      rw [add_log_page_table]
      show (dictGet (hitUpdate m.page_table (pid, pg) m.clock) (pid, pg)).isSome
      rw [dictGet_hitUpdate_self, hpt]
      rfl
    | none =>
      unfold faultAlloc
      cases h1 : find_free_frame m.memory with
      | some f =>
        show (dictGet (finishAlloc _ pid pg a f).page_table (pid, pg)).isSome
        rw [finishAlloc_page_table, dictGet_dictSet_self]
        rfl
      | none =>
        cases h2 : pickVictim { m with stats_faults := m.stats_faults + 1 } a with
        | none =>
          rw [hpt] at h
          unfold faultAlloc at h
          rw [h1, h2] at h
          rcases h with h | h <;> cases h
        | some f =>
          show (dictGet (finishAlloc _ pid pg a f).page_table (pid, pg)).isSome
          rw [finishAlloc_page_table, dictGet_dictSet_self]
          rfl

/-- C6: accessing the same `(pid, page_num)` twice in a row with no intervening
operation turns the second access into a `Hit`, whenever the first access
succeeded (`Hit` or `Fault`) on an existing process. -/
theorem c6_second_access_hits (m : MemoryManager) (pid pg : Nat) (a : Algo)
    (hp : (dictGet m.processes pid).isSome)
    (h : (allocate_page m pid pg a).1 = .hit ∨ (allocate_page m pid pg a).1 = .fault) :
    (allocate_page (allocate_page m pid pg a).2 pid pg a).1 = .hit := by
  have hres := allocate_page_resident m pid pg a h
  have hproc := allocate_page_processes m pid pg a
  revert hres hproc
  generalize (allocate_page m pid pg a).2 = m'
  intro hres hproc
  rcases Option.isSome_iff_exists.mp hres with ⟨e, he⟩
  rcases Option.isSome_iff_exists.mp hp with ⟨v, hv⟩
  unfold allocate_page
  rw [hproc, hv, he]
  rfl

/-- C6 witness: on a fresh two-frame manager with one process, accessing page 0
faults and then immediately hits. -/
theorem c6_second_access_hits_witness :
    (allocate_page (allocate_page (runOps 2 [.create 2]) 1 0 .fifo).2 1 0 .fifo).1
      = .hit :=
  c6_second_access_hits (runOps 2 [.create 2]) 1 0 .fifo (by decide) (Or.inr (by decide))

/-! ### Claim C9 -/

theorem dictGet_mapValueAt {κ β : Type} [DecidableEq κ] (d : List (κ × β)) (k : κ)
    (f : β → β) :
    dictGet (d.map (fun p => if p.1 = k then (p.1, f p.2) else p)) k
      = (dictGet d k).map f := by
  induction d with
  | nil => rfl
  | cons kv rest ih =>
    by_cases h : kv.1 = k
    · simp [dictGet_cons, h]
    · simp only [List.map_cons, if_neg h]
      rw [dictGet_cons, if_neg h, dictGet_cons, if_neg h, ih]

/-- Replace the `size` (page count) field of the descriptor of `pid`, leaving
everything else in the manager untouched; used to express that `allocate_page`
never consults the page count. -/
def setProcSize (m : MemoryManager) (pid s : Nat) : MemoryManager :=
  { m with
    processes := m.processes.map
      (fun p => if p.1 = pid then (p.1, { p.2 with size := s }) else p) }

theorem dictGet_setProcSize (m : MemoryManager) (pid s : Nat) :
    dictGet (setProcSize m pid s).processes pid
      = (dictGet m.processes pid).map (fun v => { v with size := s }) :=
  dictGet_mapValueAt m.processes pid (fun v => { v with size := s })

theorem setProcSize_comm_evict (m : MemoryManager) (pid s : Nat) (a : Algo) (f : Nat) :
    evict (setProcSize m pid s) a f = setProcSize (evict m a f) pid s := by
  unfold evict
  have hpt : (setProcSize m pid s).page_table = m.page_table := rfl
  rw [hpt]
  cases h : m.page_table.find? (fun kv => kv.2.frame_num == f) with
  | none => rfl
  | some vkv => cases a <;> rfl

theorem setProcSize_comm_finishAlloc (m : MemoryManager) (pid pg s : Nat) (a : Algo)
    (f : Nat) :
    finishAlloc (setProcSize m pid s) pid pg a f
      = setProcSize (finishAlloc m pid pg a f) pid s := by
  have hc : ((dictGet (setProcSize m pid s).processes pid).getD default).color
      = ((dictGet m.processes pid).getD default).color := by
    rw [dictGet_setProcSize]
    cases dictGet m.processes pid <;> rfl
  cases a <;> (simp only [finishAlloc]; rw [hc]; rfl)

theorem setProcSize_comm_faultAlloc (m : MemoryManager) (pid pg s : Nat) (a : Algo) :
    faultAlloc (setProcSize m pid s) pid pg a
      = ((faultAlloc m pid pg a).1, setProcSize (faultAlloc m pid pg a).2 pid s) := by
  unfold faultAlloc
  have hmem : (setProcSize m pid s).memory = m.memory := rfl
  rw [hmem]
  cases h1 : find_free_frame m.memory with
  | some f =>
    dsimp only
    rw [setProcSize_comm_finishAlloc]
  | none =>
    have hv : pickVictim (setProcSize m pid s) a = pickVictim m a := by
      unfold pickVictim find_victim_fifo find_victim_lru
      cases a <;> rfl
    rw [hv]
    cases h2 : pickVictim m a with
    | none => rfl
    | some f =>
      dsimp only
      rw [setProcSize_comm_evict, setProcSize_comm_finishAlloc]

/-- Helper: `access_page` commutes with replacing the process's page count — the
implementation never reads it. -/
theorem setProcSize_comm_allocate_page (m : MemoryManager) (pid pg s : Nat) (a : Algo) :
    allocate_page (setProcSize m pid s) pid pg a
      = ((allocate_page m pid pg a).1, setProcSize (allocate_page m pid pg a).2 pid s) := by
  unfold allocate_page
  have hiso : (dictGet (setProcSize m pid s).processes pid).isNone
      = (dictGet m.processes pid).isNone := by
    rw [dictGet_setProcSize]
    cases dictGet m.processes pid <;> rfl
  by_cases hp : (dictGet m.processes pid).isNone
  · rw [if_pos hp, if_pos (hiso.trans (by rw [hp]) : _ = true)]
  · rw [if_neg hp, if_neg (fun hc => hp (hiso.symm.trans (by rw [hc])))]
    have hpt : (setProcSize m pid s).page_table = m.page_table := rfl
    rw [hpt]
    cases hq : dictGet m.page_table (pid, pg) with
    | some e => rfl
    | none => exact setProcSize_comm_faultAlloc { m with stats_faults := m.stats_faults + 1 } pid pg s a

/-- Helper: on an existing pid, `access_page` never answers `ProcessNotFound`. -/
theorem allocate_page_ne_processNotFound (m : MemoryManager) (pid pg : Nat) (a : Algo)
    (hp : (dictGet m.processes pid).isSome) :
    (allocate_page m pid pg a).1 ≠ .processNotFound := by
  unfold allocate_page
  rw [if_neg (by rw [Option.isNone_iff_eq_none]; intro hc; rw [hc] at hp; cases hp)]
  cases hq : dictGet m.page_table (pid, pg) with
  | some e => intro hc; cases hc
  | none =>
    rcases faultAlloc_cases { m with stats_faults := m.stats_faults + 1 } pid pg a with
      h | ⟨h, _⟩ <;> (rw [h]; intro hc; cases hc)

/-- C9: the source never validates `page_num` against the process's page count.
On an existing pid the result is never a `ProcessNotFound` error (and there is
no `InvalidPage` outcome at all), a fault creates a residency entry for the
accessed page even when it is out of range, and the whole operation — result
and successor state — is unchanged when the page count of the accessed process
is replaced by an arbitrary value. -/
theorem c9_no_invalid_page (m : MemoryManager) (pid pg s : Nat) (a : Algo) :
    ((dictGet m.processes pid).isSome →
      (allocate_page m pid pg a).1 ≠ .processNotFound
      ∧ ((allocate_page m pid pg a).1 = .fault →
          (dictGet (allocate_page m pid pg a).2.page_table (pid, pg)).isSome))
    ∧ allocate_page (setProcSize m pid s) pid pg a
        = ((allocate_page m pid pg a).1, setProcSize (allocate_page m pid pg a).2 pid s) :=
  ⟨fun hp => ⟨allocate_page_ne_processNotFound m pid pg a hp,
    fun hf => allocate_page_resident m pid pg a (Or.inr hf)⟩,
   setProcSize_comm_allocate_page m pid pg s a⟩

/-- C9 witness: on a fresh two-frame manager whose only process has 2 pages,
accessing the out-of-range page 99 yields a normal fault and creates the
residency entry for `(1, 99)`. -/
theorem c9_no_invalid_page_witness :
    (allocate_page (runOps 2 [.create 2]) 1 99 .fifo).1 ≠ .processNotFound
    ∧ (dictGet (allocate_page (runOps 2 [.create 2]) 1 99 .fifo).2.page_table (1, 99)).isSome
    ∧ (allocate_page (runOps 2 [.create 2]) 1 99 .fifo).1 = .fault :=
  ⟨((c9_no_invalid_page (runOps 2 [.create 2]) 1 99 5 .fifo).1 (by decide)).1,
   ((c9_no_invalid_page (runOps 2 [.create 2]) 1 99 5 .fifo).1 (by decide)).2 (by decide),
   by decide⟩

/-! ### List helper lemmas for the state invariant -/

theorem getD_set_self {α : Type} (l : List α) (i : Nat) (v d : α) (h : i < l.length) :
    (l.set i v).getD i d = v := by
  induction l generalizing i with
  | nil => cases h
  | cons x t ih =>
    cases i with
    | zero => rfl
    | succ j => exact ih j (Nat.lt_of_succ_lt_succ h)

theorem getD_set_ne {α : Type} (l : List α) (i j : Nat) (v d : α) (h : j ≠ i) :
    (l.set i v).getD j d = l.getD j d := by
  induction l generalizing i j with
  | nil => rfl
  | cons x t ih =>
    cases i with
    | zero =>
      cases j with
      | zero => exact absurd rfl h
      | succ j' => rfl
    | succ i' =>
      cases j with
      | zero => rfl
      | succ j' => exact ih i' j' (fun hc => h (by rw [hc]))

theorem getD_out_of_range {α : Type} (l : List α) (i : Nat) (d : α) (h : l.length ≤ i) :
    l.getD i d = d := by
  induction l generalizing i with
  | nil => cases i <;> rfl
  | cons x t ih =>
    cases i with
    | zero => cases h
    | succ j => exact ih j (Nat.le_of_succ_le_succ h)

theorem lt_length_of_getD_eq_some {α : Type} (l : List (Option α)) (i : Nat) (v : α)
    (h : l.getD i none = some v) : i < l.length := by
  by_contra hc
  rw [getD_out_of_range l i none (Nat.le_of_not_lt hc)] at h
  cases h

theorem getD_append_left {α : Type} (l1 l2 : List α) (i : Nat) (d : α)
    (h : i < l1.length) : (l1 ++ l2).getD i d = l1.getD i d := by
  induction l1 generalizing i with
  | nil => cases h
  | cons x t ih =>
    cases i with
    | zero => rfl
    | succ j => exact ih j (Nat.lt_of_succ_lt_succ h)

theorem getD_append_right {α : Type} (l1 l2 : List α) (j : Nat) (d : α) :
    (l1 ++ l2).getD (l1.length + j) d = l2.getD j d := by
  induction l1 with
  | nil => simp
  | cons x t ih => simpa [Nat.succ_add] using ih

/-! ### `find_free_frame` lemmas -/

theorem find_free_frame_some (mem : List (Option Frame)) (f : Nat)
    (h : find_free_frame mem = some f) : mem.getD f none = none ∧ f < mem.length := by
  induction mem generalizing f with
  | nil => cases h
  | cons o t ih =>
    cases o with
    | none =>
      cases h
      exact ⟨rfl, Nat.succ_pos _⟩
    | some fr =>
      unfold find_free_frame at h
      cases hrec : find_free_frame t with
      | none => rw [hrec] at h; cases h
      | some g =>
        rw [hrec] at h
        cases h
        rcases ih g hrec with ⟨h1, h2⟩
        exact ⟨h1, Nat.succ_lt_succ h2⟩

theorem find_free_frame_none (mem : List (Option Frame))
    (h : find_free_frame mem = none) : ∀ o ∈ mem, o.isSome := by
  induction mem with
  | nil => intro o ho; cases ho
  | cons o t ih =>
    cases o with
    | none => cases h
    | some fr =>
      unfold find_free_frame at h
      cases hrec : find_free_frame t with
      | none =>
        intro o ho
        rcases List.mem_cons.mp ho with rfl | ho'
        · rfl
        · exact ih hrec o ho'
      | some g => rw [hrec] at h; cases h

theorem find_free_frame_none_getD (mem : List (Option Frame))
    (h : find_free_frame mem = none) (i : Nat) (hi : i < mem.length) :
    (mem.getD i none).isSome := by
  have hmem : mem.getD i none ∈ mem := by
    have heq : mem.getD i none = mem[i] := by
      rw [List.getD_eq_getElem?_getD, List.getElem?_eq_getElem hi]
      rfl
    rw [heq]
    exact List.getElem_mem hi
  exact find_free_frame_none mem h _ hmem

/-! ### The state invariant -/

/-- The frame stored at index `i` (`none` also when out of range). -/
def frameAt (m : MemoryManager) (i : Nat) : Option Frame := m.memory.getD i none

/-- The stored color of the descriptor of `pid`. -/
def procColor (m : MemoryManager) (pid : Nat) : Nat :=
  ((dictGet m.processes pid).getD default).color


/-- State invariant maintained by every operation (under any mix of policies):
the memory list has the configured length, page-table keys are unique, the
page-table entries and the occupied frames are in bijection via `frame_num`
with matching pid/page content, and the FIFO queue is duplicate-free and holds
only occupied frame indices. -/
structure CoreInv (m : MemoryManager) : Prop where
  mem_len : m.memory.length = m.memory_size
  pt_keys_nodup : (m.page_table.map Prod.fst).Nodup
  pt_frames_nodup : (m.page_table.map (fun kv => kv.2.frame_num)).Nodup
  pt_mem : ∀ kv ∈ m.page_table, ∃ c, frameAt m kv.2.frame_num = some ⟨kv.1.1, kv.1.2, c⟩
  mem_pt : ∀ i, (frameAt m i).isSome → ∃ kv ∈ m.page_table, kv.2.frame_num = i
  q_nodup : m.allocation_queue.Nodup
  q_occ : ∀ i ∈ m.allocation_queue, (frameAt m i).isSome

theorem nodup_map_mem_eq {α β : Type} {f : α → β} {d : List α} (hnd : (d.map f).Nodup)
    {a b : α} (ha : a ∈ d) (hb : b ∈ d) (hf : f a = f b) : a = b := by
  induction d with
  | nil => cases ha
  | cons x t ih =>
    rw [List.map_cons, List.nodup_cons] at hnd
    rcases List.mem_cons.mp ha with rfl | ha' <;> rcases List.mem_cons.mp hb with rfl | hb'
    · rfl
    · exact absurd (hf ▸ List.mem_map_of_mem f hb') hnd.1
    · exact absurd (hf ▸ List.mem_map_of_mem f ha') hnd.1
    · exact ih hnd.2 ha' hb'

theorem getD_replicate_none {α : Type} (F i : Nat) :
    (List.replicate F (none : Option α)).getD i none = none := by
  induction F generalizing i with
  | zero => cases i <;> rfl
  | succ n ih =>
    cases i with
    | zero => rfl
    | succ j => exact ih j

theorem coreInv_mkManager (F : Nat) : CoreInv (mkManager F) := by
  refine ⟨List.length_replicate F none, List.nodup_nil, List.nodup_nil, ?_, ?_, List.nodup_nil, ?_⟩
  · intro kv hkv; cases hkv
  · intro i hi
    rw [show frameAt (mkManager F) i = none from getD_replicate_none F i] at hi
    cases hi
  · intro i hi; cases hi

/-- Transfer `CoreInv` across a state change that keeps memory, page table and
queue (statistics, logs, clock and processes may differ). -/
theorem coreInv_of_eq (m m' : MemoryManager) (h : CoreInv m)
    (hm : m'.memory = m.memory) (hs : m'.memory_size = m.memory_size)
    (hpt : m'.page_table = m.page_table) (hq : m'.allocation_queue = m.allocation_queue) :
    CoreInv m' := by
  have hf : ∀ i, frameAt m' i = frameAt m i := fun i => by unfold frameAt; rw [hm]
  refine ⟨?_, ?_, ?_, ?_, ?_, ?_, ?_⟩
  · rw [hm, hs, h.mem_len]
  · rw [hpt]; exact h.pt_keys_nodup
  · rw [hpt]; exact h.pt_frames_nodup
  · intro kv hkv
    rw [hf]
    exact h.pt_mem kv (by rw [hpt] at hkv; exact hkv)
  · intro i hi
    rw [hf] at hi
    rw [hpt]
    exact h.mem_pt i hi
  · rw [hq]; exact h.q_nodup
  · intro i hi
    rw [hf]
    exact h.q_occ i (by rw [hq] at hi; exact hi)

theorem coreInv_create (m : MemoryManager) (size : Nat) (h : CoreInv m) :
    CoreInv (create_process m size).2 :=
  coreInv_of_eq m _ h rfl rfl rfl rfl

theorem coreInv_reset (m : MemoryManager) : CoreInv (reset m) :=
  coreInv_of_eq (mkManager m.memory_size) _ (coreInv_mkManager m.memory_size) rfl rfl rfl rfl

theorem hitUpdate_map_fst (d : List ((Nat × Nat) × PTE)) (k : Nat × Nat) (t : Nat) :
    (hitUpdate d k t).map Prod.fst = d.map Prod.fst := by
  unfold hitUpdate
  rw [List.map_map]
  exact List.map_congr_left (fun kv _ => by by_cases h : kv.1 = k <;> simp [h])

theorem hitUpdate_map_frame (d : List ((Nat × Nat) × PTE)) (k : Nat × Nat) (t : Nat) :
    (hitUpdate d k t).map (fun kv => kv.2.frame_num)
      = d.map (fun kv => kv.2.frame_num) := by
  unfold hitUpdate
  rw [List.map_map]
  exact List.map_congr_left (fun kv _ => by by_cases h : kv.1 = k <;> simp [h])

/-- Transfer `CoreInv` across a hit: the page table is updated in place
(`last_used` only) and everything else relevant is unchanged. -/
theorem coreInv_hit_aux (m m' : MemoryManager) (h : CoreInv m) (k : Nat × Nat) (t : Nat)
    (hm : m'.memory = m.memory) (hs : m'.memory_size = m.memory_size)
    (hpt : m'.page_table = hitUpdate m.page_table k t)
    (hq : m'.allocation_queue = m.allocation_queue) :
    CoreInv m' := by
  have hf : ∀ i, frameAt m' i = frameAt m i := fun i => by unfold frameAt; rw [hm]
  refine ⟨?_, ?_, ?_, ?_, ?_, ?_, ?_⟩
  · rw [hm, hs, h.mem_len]
  · rw [hpt, hitUpdate_map_fst]; exact h.pt_keys_nodup
  · rw [hpt, hitUpdate_map_frame]; exact h.pt_frames_nodup
  · intro kv' hkv'
    rw [hpt] at hkv'
    rcases List.mem_map.mp hkv' with ⟨kv, hkv, hfkv⟩
    have h1 : kv'.1 = kv.1 := by
      rw [← hfkv]; by_cases hc : kv.1 = k <;> simp [hc]
    have h2 : kv'.2.frame_num = kv.2.frame_num := by
      rw [← hfkv]; by_cases hc : kv.1 = k <;> simp [hc]
    rw [hf, h1, h2]
    exact h.pt_mem kv hkv
  · intro i hi
    rw [hf] at hi
    rcases h.mem_pt i hi with ⟨kv, hkv, hfr⟩
    refine ⟨if kv.1 = k then (kv.1, { kv.2 with last_used := t }) else kv, ?_, ?_⟩
    · rw [hpt]
      exact List.mem_map.mpr ⟨kv, hkv, rfl⟩
    · by_cases hc : kv.1 = k <;> simp [hc, hfr]
  · rw [hq]; exact h.q_nodup
  · intro i hi
    rw [hf]
    exact h.q_occ i (by rw [hq] at hi; exact hi)

/-! ### Fault-path preservation of the invariant -/

theorem dictGet_filter_none {κ β : Type} [DecidableEq κ] {d : List (κ × β)} {k : κ}
    (h : dictGet d k = none) (p : κ × β → Bool) : dictGet (d.filter p) k = none := by
  rw [dictGet_eq_none] at *
  exact fun kv hkv => h kv (List.mem_of_mem_filter hkv)

theorem dictSet_of_none {κ β : Type} [DecidableEq κ] {d : List (κ × β)} {k : κ} {v : β}
    (h : dictGet d k = none) : dictSet d k v = d ++ [(k, v)] := by
  simp [dictSet, h]

theorem finishAlloc_state (m : MemoryManager) (pid pg : Nat) (a : Algo) (f : Nat) :
    (finishAlloc m pid pg a f).memory
        = m.memory.set f (some ⟨pid, pg, procColor m pid⟩)
    ∧ (finishAlloc m pid pg a f).page_table
        = dictSet m.page_table (pid, pg) ⟨f, m.clock, m.clock⟩
    ∧ (finishAlloc m pid pg a f).allocation_queue
        = (if a = .fifo then m.allocation_queue ++ [f] else m.allocation_queue)
    ∧ (finishAlloc m pid pg a f).memory_size = m.memory_size := by
  cases a <;> exact ⟨rfl, rfl, rfl, rfl⟩

/-- Invariant after the allocation tail, stated with exactly the facts that
hold both in the free-frame case and after an eviction. -/
theorem coreInv_finishAlloc (m : MemoryManager) (pid pg f : Nat) (a : Algo)
    (hlen : m.memory.length = m.memory_size)
    (hkn : (m.page_table.map Prod.fst).Nodup)
    (hfn : (m.page_table.map (fun kv => kv.2.frame_num)).Nodup)
    (hptm : ∀ kv ∈ m.page_table, ∃ c, frameAt m kv.2.frame_num = some ⟨kv.1.1, kv.1.2, c⟩)
    (hmp : ∀ i, i ≠ f → (frameAt m i).isSome → ∃ kv ∈ m.page_table, kv.2.frame_num = i)
    (hqn : m.allocation_queue.Nodup)
    (hqo : ∀ i ∈ m.allocation_queue, i ≠ f → (frameAt m i).isSome)
    (hkey : dictGet m.page_table (pid, pg) = none)
    (hnofr : ∀ kv ∈ m.page_table, kv.2.frame_num ≠ f)
    (hqf : a = .fifo → f ∉ m.allocation_queue)
    (hflt : f < m.memory.length) :
    CoreInv (finishAlloc m pid pg a f) := by
  rcases finishAlloc_state m pid pg a f with ⟨hmem, hpt, hq, hms⟩
  rw [dictSet_of_none hkey] at hpt
  have hfa : ∀ i, frameAt (finishAlloc m pid pg a f) i
      = if i = f then some ⟨pid, pg, procColor m pid⟩
        else frameAt m i := by
    intro i
    unfold frameAt
    rw [hmem]
    by_cases hi : i = f
    · rw [if_pos hi, hi, getD_set_self _ _ _ _ hflt]
    · rw [if_neg hi, getD_set_ne _ _ _ _ _ hi]
  refine ⟨?_, ?_, ?_, ?_, ?_, ?_, ?_⟩
  · rw [hmem, List.length_set, hlen, hms]
  · rw [hpt, List.map_append, List.nodup_append]
    refine ⟨hkn, List.nodup_singleton _, ?_⟩
    intro k hk hk'
    rcases List.mem_map.mp hk with ⟨kv, hkv, hfk⟩
    rcases List.mem_singleton.mp hk' with rfl
    exact (dictGet_eq_none.mp hkey kv hkv) hfk
  · rw [hpt, List.map_append, List.nodup_append]
    refine ⟨hfn, List.nodup_singleton _, ?_⟩
    intro g hg hg'
    rcases List.mem_map.mp hg with ⟨kv, hkv, hfk⟩
    rcases List.mem_singleton.mp hg' with rfl
    exact (hnofr kv hkv) hfk
  · intro kv hkv
    rw [hpt] at hkv
    rcases List.mem_append.mp hkv with hold | hnew
    · rcases hptm kv hold with ⟨c, hc⟩
      refine ⟨c, ?_⟩
      rw [hfa, if_neg (hnofr kv hold), hc]
    · rcases List.mem_singleton.mp hnew with rfl
      refine ⟨procColor m pid, ?_⟩
      rw [hfa, if_pos rfl]
  · intro i hi
    rw [hfa] at hi
    by_cases hif : i = f
    · refine ⟨((pid, pg), ⟨f, m.clock, m.clock⟩), ?_, hif.symm⟩
      rw [hpt]
      exact List.mem_append.mpr (Or.inr (List.mem_singleton.mpr rfl))
    · rw [if_neg hif] at hi
      rcases hmp i hif hi with ⟨kv, hkv, hfr⟩
      exact ⟨kv, by rw [hpt]; exact List.mem_append.mpr (Or.inl hkv), hfr⟩
  · rw [hq]
    cases a with
    | fifo =>
      rw [if_pos rfl, List.nodup_append]
      exact ⟨hqn, List.nodup_singleton _, fun x hx hx' =>
        (List.mem_singleton.mp hx' ▸ hqf rfl) hx⟩
    | lru => exact hqn
  · intro i hi
    rw [hq] at hi
    rw [hfa]
    by_cases hif : i = f
    · rw [if_pos hif]; rfl
    · rw [if_neg hif]
      cases a with
      | fifo =>
        rw [if_pos rfl] at hi
        rcases List.mem_append.mp hi with hi' | hi'
        · exact hqo i hi' hif
        · exact absurd (List.mem_singleton.mp hi') hif
      | lru => exact hqo i hi hif

theorem evict_state (m : MemoryManager) (a : Algo) (f : Nat)
    (vkv : (Nat × Nat) × PTE)
    (hfd : m.page_table.find? (fun kv => kv.2.frame_num == f) = some vkv) :
    (evict m a f).memory = m.memory
    ∧ (evict m a f).memory_size = m.memory_size
    ∧ (evict m a f).page_table = m.page_table.filter (fun kv => ¬ kv.1 = vkv.1)
    ∧ (evict m a f).allocation_queue
        = (if a = .fifo then m.allocation_queue.erase f else m.allocation_queue)
    ∧ (evict m a f).processes = m.processes
    ∧ (evict m a f).clock = m.clock + 1 := by
  unfold evict
  rw [hfd]
  cases a <;> exact ⟨rfl, rfl, rfl, rfl, rfl, rfl⟩

theorem find_victim_lru_go_spec (l : List ((Nat × Nat) × PTE)) (acc : Option (Nat × Nat)) :
    find_victim_lru_go l acc = acc
    ∨ ∃ kv ∈ l, find_victim_lru_go l acc = some (kv.2.last_used, kv.2.frame_num) := by
  induction l generalizing acc with
  | nil => exact Or.inl rfl
  | cons kv rest ih =>
    unfold find_victim_lru_go
    dsimp only
    split
    · rcases ih (some (kv.2.last_used, kv.2.frame_num)) with h | ⟨kv', hm, he⟩
      · rw [h]
        exact Or.inr ⟨kv, List.mem_cons_self kv rest, rfl⟩
      · exact Or.inr ⟨kv', List.mem_cons_of_mem kv hm, he⟩
    · rcases ih acc with h | ⟨kv', hm, he⟩
      · exact Or.inl h
      · exact Or.inr ⟨kv', List.mem_cons_of_mem kv hm, he⟩

theorem find_victim_lru_mem (m : MemoryManager) (f : Nat)
    (h : find_victim_lru m = some f) : ∃ kv ∈ m.page_table, kv.2.frame_num = f := by
  unfold find_victim_lru at h
  cases hgo : find_victim_lru_go m.page_table none with
  | none => rw [hgo] at h; cases h
  | some p =>
    rw [hgo] at h
    rcases find_victim_lru_go_spec m.page_table none with hnil | ⟨kv, hm, he⟩
    · rw [hgo] at hnil; cases hnil
    · rw [hgo] at he
      cases he
      cases h
      exact ⟨kv, hm, rfl⟩

theorem isSome_frameAt_exists {m : MemoryManager} {i : Nat}
    (h : (frameAt m i).isSome) : ∃ fr, frameAt m i = some fr :=
  Option.isSome_iff_exists.mp h

/-- Invariant preservation across one `access_page` call. -/
theorem coreInv_allocate_page (m : MemoryManager) (pid pg : Nat) (a : Algo)
    (h : CoreInv m) : CoreInv (allocate_page m pid pg a).2 := by
  unfold allocate_page
  by_cases hp : (dictGet m.processes pid).isNone
  · rw [if_pos hp]
    exact h
  · rw [if_neg hp]
    cases hpt : dictGet m.page_table (pid, pg) with
    | some e => exact coreInv_hit_aux m _ h (pid, pg) m.clock rfl rfl rfl rfl
    | none =>
      show CoreInv (faultAlloc { m with stats_faults := m.stats_faults + 1 } pid pg a).2
      set m1 : MemoryManager := { m with stats_faults := m.stats_faults + 1 } with hm1
      have h1 : CoreInv m1 := coreInv_of_eq m m1 h rfl rfl rfl rfl
      have hkey1 : dictGet m1.page_table (pid, pg) = none := hpt
      clear_value m1
      clear hpt hp h hm1
      unfold faultAlloc
      cases hff : find_free_frame m1.memory with
      | some f =>
        dsimp only
        rcases find_free_frame_some m1.memory f hff with ⟨hfree, hflt⟩
        have hfree' : frameAt m1 f = none := hfree
        refine coreInv_finishAlloc m1 pid pg f a h1.mem_len h1.pt_keys_nodup
          h1.pt_frames_nodup h1.pt_mem (fun i _ => h1.mem_pt i) h1.q_nodup
          (fun i hi _ => h1.q_occ i hi) hkey1 ?_ ?_ hflt
        · intro kv hkv hc
          rcases h1.pt_mem kv hkv with ⟨c, hcc⟩
          rw [hc, hfree'] at hcc
          cases hcc
        · intro _ hc
          have := h1.q_occ f hc
          rw [hfree'] at this
          cases this
      | none =>
        cases hv : pickVictim m1 a with
        | none => exact h1
        | some f =>
          dsimp only
          have hocc : (frameAt m1 f).isSome := by
            cases a with
            | fifo =>
              have hf : f ∈ m1.allocation_queue :=
                List.mem_of_mem_head? (Option.mem_def.mpr hv)
              exact h1.q_occ f hf
            | lru =>
              rcases find_victim_lru_mem m1 f hv with ⟨kv, hkv, hfr⟩
              rcases h1.pt_mem kv hkv with ⟨c, hc⟩
              rw [hfr] at hc
              rw [hc]
              rfl
          have hflt : f < m1.memory.length := by
            rcases isSome_frameAt_exists hocc with ⟨fr, hfr⟩
            exact lt_length_of_getD_eq_some m1.memory f fr hfr
          have hfind : ∃ vkv, m1.page_table.find? (fun kv => kv.2.frame_num == f)
              = some vkv := by
            rcases h1.mem_pt f hocc with ⟨kv, hkv, hfr⟩
            have : (m1.page_table.find? (fun kv => kv.2.frame_num == f)).isSome :=
              List.find?_isSome.mpr ⟨kv, hkv, by simp [hfr]⟩
            exact Option.isSome_iff_exists.mp this
          rcases hfind with ⟨vkv, hfd⟩
          have hvmem : vkv ∈ m1.page_table := List.mem_of_find?_eq_some hfd
          have hvfr : vkv.2.frame_num = f := by
            have := List.find?_some hfd
            simpa using this
          rcases evict_state m1 a f vkv hfd with ⟨hmem2, hms2, hpt2, hq2, _, _⟩
          set m2 := evict m1 a f with hm2
          have hfa2 : ∀ i, frameAt m2 i = frameAt m1 i := by
            intro i; unfold frameAt; rw [hmem2]
          refine coreInv_finishAlloc m2 pid pg f a ?_ ?_ ?_ ?_ ?_ ?_ ?_ ?_ ?_ ?_ ?_
          · rw [hmem2, hms2, h1.mem_len]
          · rw [hpt2]
            exact h1.pt_keys_nodup.sublist (List.Sublist.map _ (List.filter_sublist _))
          · rw [hpt2]
            exact h1.pt_frames_nodup.sublist (List.Sublist.map _ (List.filter_sublist _))
          · intro kv hkv
            rw [hpt2] at hkv
            rw [hfa2]
            exact h1.pt_mem kv (List.mem_of_mem_filter hkv)
          · intro i hif hi
            rw [hfa2] at hi
            rcases h1.mem_pt i hi with ⟨kv, hkv, hfr⟩
            refine ⟨kv, ?_, hfr⟩
            rw [hpt2, List.mem_filter]
            refine ⟨hkv, ?_⟩
            simp only [decide_eq_true_eq]
            intro hk
            have : kv = vkv := nodup_map_mem_eq h1.pt_keys_nodup hkv hvmem hk
            rw [this, hvfr] at hfr
            exact hif hfr.symm
          · rw [hq2]
            cases a with
            | fifo => exact h1.q_nodup.erase f
            | lru => exact h1.q_nodup
          · intro i hi hif
            rw [hq2] at hi
            rw [hfa2]
            cases a with
            | fifo =>
              rw [if_pos rfl] at hi
              exact h1.q_occ i (List.mem_of_mem_erase hi)
            | lru => exact h1.q_occ i hi
          · rw [hpt2]
            exact dictGet_filter_none hkey1 _
          · intro kv hkv hc
            rw [hpt2, List.mem_filter] at hkv
            have : kv = vkv := nodup_map_mem_eq h1.pt_frames_nodup hkv.1 hvmem
              (by rw [hc, hvfr])
            rw [this] at hkv
            simp at hkv
          · intro ha
            rw [hq2, if_pos ha]
            exact h1.q_nodup.not_mem_erase
          · rw [hmem2]
            exact hflt

/-! ### `remove_process` and the operation-sequence induction -/

/-- Does this frame slot belong to `pid`?  Mirrors the loop condition
`self.memory[i] and self.memory[i]['pid'] == pid`. -/
def frameOwned (pid : Nat) (o : Option Frame) : Bool :=
  match o with
  | some fr => fr.pid == pid
  | none => false

theorem freeFrames_fields (pid : Nat) (is_ : List Nat) (m : MemoryManager) :
    (freeFrames pid is_ m).memory_size = m.memory_size
    ∧ (freeFrames pid is_ m).page_table = m.page_table
    ∧ (freeFrames pid is_ m).processes = m.processes
    ∧ (freeFrames pid is_ m).process_counter = m.process_counter
    ∧ (freeFrames pid is_ m).stats_faults = m.stats_faults
    ∧ (freeFrames pid is_ m).stats_hits = m.stats_hits
    ∧ (freeFrames pid is_ m).logs = m.logs
    ∧ (freeFrames pid is_ m).clock = m.clock := by
  induction is_ generalizing m with
  | nil => exact ⟨rfl, rfl, rfl, rfl, rfl, rfl, rfl, rfl⟩
  | cons i rest ih =>
    have hstep : (freeFrameStep pid m i).memory_size = m.memory_size
        ∧ (freeFrameStep pid m i).page_table = m.page_table
        ∧ (freeFrameStep pid m i).processes = m.processes
        ∧ (freeFrameStep pid m i).process_counter = m.process_counter
        ∧ (freeFrameStep pid m i).stats_faults = m.stats_faults
        ∧ (freeFrameStep pid m i).stats_hits = m.stats_hits
        ∧ (freeFrameStep pid m i).logs = m.logs
        ∧ (freeFrameStep pid m i).clock = m.clock := by
      unfold freeFrameStep
      cases m.memory.getD i none with
      | none => exact ⟨rfl, rfl, rfl, rfl, rfl, rfl, rfl, rfl⟩
      | some fr =>
        dsimp only
        by_cases hfp : fr.pid = pid
        · rw [if_pos hfp]
          exact ⟨rfl, rfl, rfl, rfl, rfl, rfl, rfl, rfl⟩
        · rw [if_neg hfp]
          exact ⟨rfl, rfl, rfl, rfl, rfl, rfl, rfl, rfl⟩
    rcases ih (freeFrameStep pid m i) with ⟨h1, h2, h3, h4, h5, h6, h7, h8⟩
    exact ⟨h1.trans hstep.1, h2.trans hstep.2.1, h3.trans hstep.2.2.1,
      h4.trans hstep.2.2.2.1, h5.trans hstep.2.2.2.2.1, h6.trans hstep.2.2.2.2.2.1,
      h7.trans hstep.2.2.2.2.2.2.1, h8.trans hstep.2.2.2.2.2.2.2⟩

/-- Pointwise effect of the frame-freeing loop of `remove_process` on memory
and the FIFO queue, for a duplicate-free index list and queue. -/
theorem freeFrames_mem_queue (pid : Nat) (is_ : List Nat) :
    ∀ m : MemoryManager, is_.Nodup → m.allocation_queue.Nodup →
    (freeFrames pid is_ m).memory.length = m.memory.length
    ∧ (∀ j, frameAt (freeFrames pid is_ m) j
        = if j ∈ is_ ∧ frameOwned pid (frameAt m j) then none else frameAt m j)
    ∧ (∀ j, j ∈ (freeFrames pid is_ m).allocation_queue
        ↔ j ∈ m.allocation_queue ∧ ¬(j ∈ is_ ∧ frameOwned pid (frameAt m j)))
    ∧ (freeFrames pid is_ m).allocation_queue.Nodup := by
  induction is_ with
  | nil =>
    intro m _ hqn
    refine ⟨rfl, fun j => by simp [freeFrames], fun j => by simp [freeFrames], hqn⟩
  | cons i rest ih =>
    intro m hnd hqn
    rw [List.nodup_cons] at hnd
    have notOwned : ∀ {j : Nat}, frameOwned pid (frameAt m j) = false →
        ∀ {P : Prop}, ¬(P ∧ frameOwned pid (frameAt m j) = true) := by
      intro j hf P hc
      rw [hf] at hc
      exact Bool.noConfusion hc.2
    have hstep :
        (freeFrameStep pid m i).memory.length = m.memory.length
        ∧ (∀ j, frameAt (freeFrameStep pid m i) j
            = if j = i ∧ frameOwned pid (frameAt m j) then none else frameAt m j)
        ∧ (∀ j, j ∈ (freeFrameStep pid m i).allocation_queue
            ↔ j ∈ m.allocation_queue ∧ ¬(j = i ∧ frameOwned pid (frameAt m j)))
        ∧ (freeFrameStep pid m i).allocation_queue.Nodup := by
      unfold freeFrameStep
      cases hfi : m.memory.getD i none with
      | none =>
        dsimp only
        have hoi : frameOwned pid (frameAt m i) = false := by
          show frameOwned pid (m.memory.getD i none) = false
          rw [hfi]
          rfl
        refine ⟨rfl, ?_, ?_, hqn⟩
        · intro j
          by_cases hj : j = i
          · subst hj
            rw [if_neg (notOwned hoi)]
          · rw [if_neg (fun hc => hj hc.1)]
        · intro j
          refine ⟨fun hjq => ⟨hjq, ?_⟩, fun hc => hc.1⟩
          by_cases hj : j = i
          · subst hj
            exact notOwned hoi
          · exact fun hc => hj hc.1
      | some fr =>
        dsimp only
        by_cases hfp : fr.pid = pid
        · rw [if_pos hfp]
          have hilen : i < m.memory.length := lt_length_of_getD_eq_some m.memory i fr hfi
          have hoi : frameOwned pid (frameAt m i) = true := by
            show frameOwned pid (m.memory.getD i none) = true
            rw [hfi]
            simp [frameOwned, hfp]
          refine ⟨List.length_set m.memory i none, ?_, ?_, ?_⟩
          · intro j
            by_cases hj : j = i
            · subst hj
              show (m.memory.set j none).getD j none = _
              rw [getD_set_self _ _ _ _ hilen, if_pos ⟨rfl, hoi⟩]
            · show (m.memory.set i none).getD j none = _
              rw [getD_set_ne _ _ _ _ _ hj, if_neg (fun hc => hj hc.1)]
              rfl
          · intro j
            show (j ∈ if i ∈ m.allocation_queue then m.allocation_queue.erase i
                else m.allocation_queue) ↔ _
            by_cases hiq : i ∈ m.allocation_queue
            · rw [if_pos hiq, hqn.mem_erase_iff]
              constructor
              · exact fun hc => ⟨hc.2, fun hc2 => hc.1 hc2.1⟩
              · exact fun hc => ⟨fun hji => hc.2 ⟨hji, by rw [hji]; exact hoi⟩, hc.1⟩
            · rw [if_neg hiq]
              constructor
              · intro hjq
                refine ⟨hjq, ?_⟩
                rintro ⟨hji, _⟩
                rw [hji] at hjq
                exact hiq hjq
              · exact fun hc => hc.1
          · show (if i ∈ m.allocation_queue then m.allocation_queue.erase i
                else m.allocation_queue).Nodup
            by_cases hiq : i ∈ m.allocation_queue
            · rw [if_pos hiq]
              exact hqn.erase i
            · rw [if_neg hiq]
              exact hqn
        · rw [if_neg hfp]
          have hoi : frameOwned pid (frameAt m i) = false := by
            show frameOwned pid (m.memory.getD i none) = false
            rw [hfi]
            simp [frameOwned, hfp]
          refine ⟨rfl, ?_, ?_, hqn⟩
          · intro j
            by_cases hj : j = i
            · subst hj
              rw [if_neg (notOwned hoi)]
            · rw [if_neg (fun hc => hj hc.1)]
          · intro j
            refine ⟨fun hjq => ⟨hjq, ?_⟩, fun hc => hc.1⟩
            by_cases hj : j = i
            · subst hj
              exact notOwned hoi
            · exact fun hc => hj hc.1
    rcases ih (freeFrameStep pid m i) hnd.2 hstep.2.2.2 with ⟨ihl, ihfa, ihq, ihn⟩
    have hred : freeFrames pid (i :: rest) m = freeFrames pid rest (freeFrameStep pid m i) := rfl
    rw [hred]
    refine ⟨ihl.trans hstep.1, ?_, ?_, ihn⟩
    · intro j
      by_cases hj : j = i
      · subst hj
        have hfs : frameAt (freeFrameStep pid m j) j
            = if frameOwned pid (frameAt m j) then none else frameAt m j := by
          rw [hstep.2.1 j]
          by_cases ho : frameOwned pid (frameAt m j) = true
          · rw [if_pos ⟨rfl, ho⟩, if_pos ho]
          · rw [if_neg (fun hc => ho hc.2), if_neg ho]
        rw [ihfa j, hfs]
        rw [if_neg (fun hc => hnd.1 hc.1)]
        by_cases ho : frameOwned pid (frameAt m j) = true
        · rw [if_pos ho, if_pos ⟨List.mem_cons_self j rest, ho⟩]
        · rw [if_neg ho, if_neg (fun hc => ho hc.2)]
      · have hfs : frameAt (freeFrameStep pid m i) j = frameAt m j := by
          rw [hstep.2.1 j, if_neg (fun hc => hj hc.1)]
        rw [ihfa j, hfs]
        by_cases hr : j ∈ rest ∧ frameOwned pid (frameAt m j) = true
        · rw [if_pos hr, if_pos ⟨List.mem_cons_of_mem i hr.1, hr.2⟩]
        · rw [if_neg hr,
            if_neg (fun hc => hr ⟨(List.mem_cons.mp hc.1).resolve_left hj, hc.2⟩)]
    · intro j
      by_cases hj : j = i
      · subst hj
        have hos : frameOwned pid (frameAt (freeFrameStep pid m j) j) = false := by
          rw [hstep.2.1 j]
          by_cases ho : frameOwned pid (frameAt m j) = true
          · rw [if_pos ⟨rfl, ho⟩]
            rfl
          · rw [if_neg (fun hc => ho hc.2)]
            cases hb : frameOwned pid (frameAt m j) with
            | false => rfl
            | true => exact absurd hb ho
        rw [ihq j, hstep.2.2.1 j, hos]
        constructor
        · intro hc
          exact ⟨hc.1.1, fun h2 => hc.1.2 ⟨rfl, h2.2⟩⟩
        · intro hc
          refine ⟨⟨hc.1, fun h2 => hc.2 ⟨List.mem_cons_self j rest, h2.2⟩⟩, ?_⟩
          intro h2
          exact Bool.noConfusion h2.2
      · have hos : frameAt (freeFrameStep pid m i) j = frameAt m j := by
          rw [hstep.2.1 j, if_neg (fun hc => hj hc.1)]
        rw [ihq j, hstep.2.2.1 j, hos]
        constructor
        · intro hc
          exact ⟨hc.1.1, fun h2 =>
            hc.2 ⟨(List.mem_cons.mp h2.1).resolve_left hj, h2.2⟩⟩
        · intro hc
          exact ⟨⟨hc.1, fun h2 => hj h2.1⟩,
            fun h2 => hc.2 ⟨List.mem_cons_of_mem i h2.1, h2.2⟩⟩

/-- Invariant preservation across `remove_process`. -/
theorem coreInv_remove_process (m : MemoryManager) (pid : Nat) (h : CoreInv m) :
    CoreInv (remove_process m pid).2 := by
  unfold remove_process
  by_cases hp : (dictGet m.processes pid).isNone
  · rw [if_pos hp]
    exact h
  · rw [if_neg hp]
    rcases freeFrames_mem_queue pid (List.range m.memory.length) m
      (List.nodup_range _) h.q_nodup with ⟨hl1, hfa1, hq1, hqn1⟩
    rcases freeFrames_fields pid (List.range m.memory.length) m with
      ⟨hs1, hpt1, _, _, _, _, _, _⟩
    set m1 := freeFrames pid (List.range m.memory.length) m with hm1
    have hfa1' : ∀ j, frameAt m1 j
        = if frameOwned pid (frameAt m j) then none else frameAt m j := by
      intro j
      rw [hfa1 j]
      by_cases ho : frameOwned pid (frameAt m j) = true
      · have hjlen : j < m.memory.length := by
          cases hfj : frameAt m j with
          | none => rw [hfj] at ho; cases ho
          | some fr => exact lt_length_of_getD_eq_some m.memory j fr hfj
        rw [if_pos ⟨List.mem_range.mpr hjlen, ho⟩, if_pos ho]
      · rw [if_neg (fun hc => ho hc.2), if_neg (fun hc => ho hc)]
    refine ⟨?_, ?_, ?_, ?_, ?_, ?_, ?_⟩
    · show m1.memory.length = m1.memory_size
      rw [hl1, hs1, h.mem_len]
    · show ((m1.page_table.filter _).map Prod.fst).Nodup
      rw [hpt1]
      exact h.pt_keys_nodup.sublist (List.Sublist.map _ (List.filter_sublist _))
    · show ((m1.page_table.filter _).map _).Nodup
      rw [hpt1]
      exact h.pt_frames_nodup.sublist (List.Sublist.map _ (List.filter_sublist _))
    · intro kv hkv
      have hkv' : kv ∈ m.page_table.filter (fun kv => ¬ kv.1.1 = pid) := by
        rw [← hpt1]; exact hkv
      rw [List.mem_filter] at hkv'
      have hne : ¬ kv.1.1 = pid := by simpa using hkv'.2
      rcases h.pt_mem kv hkv'.1 with ⟨c, hc⟩
      refine ⟨c, ?_⟩
      show frameAt m1 kv.2.frame_num = _
      rw [hfa1', hc, if_neg ?_]
      simp [frameOwned, hne]
    · intro i hi
      have hi' : (frameAt m1 i).isSome := hi
      rw [hfa1'] at hi'
      by_cases ho : frameOwned pid (frameAt m i) = true
      · rw [if_pos ho] at hi'; cases hi'
      · rw [if_neg ho] at hi'
        rcases h.mem_pt i hi' with ⟨kv, hkv, hfr⟩
        refine ⟨kv, ?_, hfr⟩
        show kv ∈ m1.page_table.filter _
        rw [hpt1, List.mem_filter]
        refine ⟨hkv, ?_⟩
        rcases h.pt_mem kv hkv with ⟨c, hc⟩
        rw [hfr] at hc
        simp only [decide_eq_true_eq]
        intro hkp
        apply ho
        rw [hc]
        simp [frameOwned, hkp]
    · exact hqn1
    · intro i hi
      have hi' : i ∈ m1.allocation_queue := hi
      rw [hq1 i] at hi'
      have hocc := h.q_occ i hi'.1
      show (frameAt m1 i).isSome
      rw [hfa1']
      by_cases ho : frameOwned pid (frameAt m i) = true
      · have hilen : i < m.memory.length := by
          rcases isSome_frameAt_exists hocc with ⟨fr, hfr⟩
          exact lt_length_of_getD_eq_some m.memory i fr hfr
        exact absurd ⟨List.mem_range.mpr hilen, ho⟩ hi'.2
      · rw [if_neg ho]
        exact hocc

/-- Invariant preservation across any single operation. -/
theorem coreInv_applyOp (m : MemoryManager) (op : Op) (h : CoreInv m) :
    CoreInv (applyOp m op) := by
  cases op with
  | create s => exact coreInv_create m s h
  | access pid pg a => exact coreInv_allocate_page m pid pg a h
  | remove pid => exact coreInv_remove_process m pid h
  | reset => exact coreInv_reset m

theorem coreInv_foldl (ops : List Op) (m : MemoryManager) (h : CoreInv m) :
    CoreInv (ops.foldl applyOp m) := by
  induction ops generalizing m with
  | nil => exact h
  | cons op rest ih => exact ih _ (coreInv_applyOp m op h)

/-- Every state reachable from a fresh manager satisfies the invariant. -/
theorem coreInv_runOps (F : Nat) (ops : List Op) : CoreInv (runOps F ops) :=
  coreInv_foldl ops _ (coreInv_mkManager F)

/-! ### Counting occupied frames: claims C5 and C7 -/

theorem filter_map_swap {α β : Type} (f : α → β) (l : List α) (q : β → Bool) :
    (l.map f).filter q = (l.filter (fun a => q (f a))).map f := by
  induction l with
  | nil => rfl
  | cons x t ih =>
    rw [List.map_cons, List.filter_cons, List.filter_cons]
    by_cases h : q (f x) = true
    · rw [if_pos h, if_pos h, List.map_cons, ih]
    · rw [if_neg h, if_neg h, ih]

theorem countP_eq_length_filter_range {α : Type} (l : List α) (p : α → Bool) (d : α) :
    l.countP p
      = ((List.range l.length).filter (fun i => p (l.getD i d))).length := by
  induction l with
  | nil => rfl
  | cons x t ih =>
    rw [List.countP_cons, List.length_cons, List.range_succ_eq_map, List.filter_cons]
    rw [filter_map_swap]
    have hshift : (fun a => p ((x :: t).getD (Nat.succ a) d)) = fun a => p (t.getD a d) := rfl
    rw [hshift, show (x :: t).getD 0 d = x from rfl]
    by_cases h : p x = true
    · rw [if_pos h, if_pos h, List.length_cons, List.length_map, ← ih]
    · rw [if_neg h, if_neg h, List.length_map, ← ih]
      rfl

/-- Under the invariant, the number of non-empty frames equals the number of
page-table entries. -/
theorem coreInv_count (m : MemoryManager) (h : CoreInv m) :
    m.memory.countP (fun o => o.isSome) = m.page_table.length := by
  have h1 : m.memory.countP (fun o => o.isSome)
      = ((List.range m.memory.length).filter
          (fun i => (m.memory.getD i none).isSome)).length :=
    countP_eq_length_filter_range m.memory _ none
  have hmemL : ∀ i, i ∈ (List.range m.memory.length).filter
      (fun i => (m.memory.getD i none).isSome) ↔ (frameAt m i).isSome := by
    intro i
    rw [List.mem_filter, List.mem_range]
    constructor
    · exact fun hc => hc.2
    · intro hc
      refine ⟨?_, hc⟩
      rcases isSome_frameAt_exists hc with ⟨fr, hfr⟩
      exact lt_length_of_getD_eq_some _ _ _ hfr
  have hmemF : ∀ i, i ∈ m.page_table.map (fun kv => kv.2.frame_num)
      ↔ (frameAt m i).isSome := by
    intro i
    rw [List.mem_map]
    constructor
    · rintro ⟨kv, hkv, rfl⟩
      rcases h.pt_mem kv hkv with ⟨c, hc⟩
      rw [hc]
      rfl
    · intro hc
      rcases h.mem_pt i hc with ⟨kv, hkv, hfr⟩
      exact ⟨kv, hkv, hfr⟩
  have hLn : ((List.range m.memory.length).filter
      (fun i => (m.memory.getD i none).isSome)).Nodup := (List.nodup_range _).filter _
  have htf : ((List.range m.memory.length).filter
        (fun i => (m.memory.getD i none).isSome)).toFinset
      = (m.page_table.map (fun kv => kv.2.frame_num)).toFinset := by
    ext i
    rw [List.mem_toFinset, List.mem_toFinset, hmemL, hmemF]
  calc m.memory.countP (fun o => o.isSome)
      = ((List.range m.memory.length).filter
          (fun i => (m.memory.getD i none).isSome)).length := h1
    _ = ((List.range m.memory.length).filter
          (fun i => (m.memory.getD i none).isSome)).toFinset.card :=
        (List.toFinset_card_of_nodup hLn).symm
    _ = (m.page_table.map (fun kv => kv.2.frame_num)).toFinset.card := by rw [htf]
    _ = (m.page_table.map (fun kv => kv.2.frame_num)).length :=
        List.toFinset_card_of_nodup h.pt_frames_nodup
    _ = m.page_table.length := List.length_map _ _

/-- C5: in every reachable state, the number of non-empty frames equals the
number of page-residency (page-table) entries. -/
theorem c5_occupied_eq_entries (F : Nat) (ops : List Op) :
    (runOps F ops).memory.countP (fun o => o.isSome)
      = (runOps F ops).page_table.length :=
  coreInv_count _ (coreInv_runOps F ops)

/-- Under the invariant, the number of frames owned by `pid` equals the number
of `pid`'s page-table entries. -/
theorem coreInv_count_pid (m : MemoryManager) (h : CoreInv m) (pid : Nat) :
    m.memory.countP (fun o => frameOwned pid o)
      = m.page_table.countP (fun kv => kv.1.1 == pid) := by
  have h1 : m.memory.countP (fun o => frameOwned pid o)
      = ((List.range m.memory.length).filter
          (fun i => frameOwned pid (m.memory.getD i none))).length :=
    countP_eq_length_filter_range m.memory _ none
  have hmemL : ∀ i, i ∈ (List.range m.memory.length).filter
      (fun i => frameOwned pid (m.memory.getD i none))
      ↔ frameOwned pid (frameAt m i) = true := by
    intro i
    rw [List.mem_filter, List.mem_range]
    constructor
    · exact fun hc => hc.2
    · intro hc
      refine ⟨?_, hc⟩
      cases hfr : frameAt m i with
      | none => rw [hfr] at hc; cases hc
      | some fr => exact lt_length_of_getD_eq_some _ _ _ hfr
  have hmemF : ∀ i, i ∈ (m.page_table.filter (fun kv => kv.1.1 == pid)).map
      (fun kv => kv.2.frame_num) ↔ frameOwned pid (frameAt m i) = true := by
    intro i
    rw [List.mem_map]
    constructor
    · rintro ⟨kv, hkv, rfl⟩
      rw [List.mem_filter] at hkv
      rcases h.pt_mem kv hkv.1 with ⟨c, hc⟩
      rw [hc]
      have : kv.1.1 == pid := hkv.2
      simpa [frameOwned] using this
    · intro hc
      have hocc : (frameAt m i).isSome := by
        cases hfr : frameAt m i with
        | none => rw [hfr] at hc; cases hc
        | some fr => rfl
      rcases h.mem_pt i hocc with ⟨kv, hkv, hfr⟩
      refine ⟨kv, ?_, hfr⟩
      rw [List.mem_filter]
      refine ⟨hkv, ?_⟩
      rcases h.pt_mem kv hkv with ⟨c, hcc⟩
      rw [hfr] at hcc
      rw [hcc] at hc
      simpa [frameOwned] using hc
  have hLn : ((List.range m.memory.length).filter
      (fun i => frameOwned pid (m.memory.getD i none))).Nodup :=
    (List.nodup_range _).filter _
  have hFn : ((m.page_table.filter (fun kv => kv.1.1 == pid)).map
      (fun kv => kv.2.frame_num)).Nodup :=
    h.pt_frames_nodup.sublist (List.Sublist.map _ (List.filter_sublist _))
  have htf : ((List.range m.memory.length).filter
        (fun i => frameOwned pid (m.memory.getD i none))).toFinset
      = ((m.page_table.filter (fun kv => kv.1.1 == pid)).map
        (fun kv => kv.2.frame_num)).toFinset := by
    ext i
    rw [List.mem_toFinset, List.mem_toFinset, hmemL, hmemF]
  calc m.memory.countP (fun o => frameOwned pid o)
      = ((List.range m.memory.length).filter
          (fun i => frameOwned pid (m.memory.getD i none))).length := h1
    _ = ((List.range m.memory.length).filter
          (fun i => frameOwned pid (m.memory.getD i none))).toFinset.card :=
        (List.toFinset_card_of_nodup hLn).symm
    _ = ((m.page_table.filter (fun kv => kv.1.1 == pid)).map
          (fun kv => kv.2.frame_num)).toFinset.card := by rw [htf]
    _ = ((m.page_table.filter (fun kv => kv.1.1 == pid)).map
          (fun kv => kv.2.frame_num)).length := List.toFinset_card_of_nodup hFn
    _ = (m.page_table.filter (fun kv => kv.1.1 == pid)).length := List.length_map _ _
    _ = m.page_table.countP (fun kv => kv.1.1 == pid) :=
        (List.countP_eq_length_filter _ _).symm

/-- Pointwise memory effect of the whole frame-freeing loop of
`remove_process`: exactly the frames owned by `pid` are cleared. -/
theorem freeFrames_frameAt (m : MemoryManager) (pid : Nat)
    (hqn : m.allocation_queue.Nodup) (j : Nat) :
    frameAt (freeFrames pid (List.range m.memory.length) m) j
      = if frameOwned pid (frameAt m j) then none else frameAt m j := by
  rcases freeFrames_mem_queue pid (List.range m.memory.length) m
    (List.nodup_range _) hqn with ⟨_, hfa, _, _⟩
  rw [hfa j]
  by_cases ho : frameOwned pid (frameAt m j) = true
  · have hjlen : j < m.memory.length := by
      cases hfj : frameAt m j with
      | none => rw [hfj] at ho; cases ho
      | some fr => exact lt_length_of_getD_eq_some m.memory j fr hfj
    rw [if_pos ⟨List.mem_range.mpr hjlen, ho⟩, if_pos ho]
  · rw [if_neg (fun hc => ho hc.2), if_neg ho]

theorem dictGet_dictDel_self {κ β : Type} [DecidableEq κ] (d : List (κ × β)) (k : κ) :
    dictGet (dictDel d k) k = none := by
  rw [dictGet_eq_none]
  intro kv hkv
  rw [dictDel, List.mem_filter] at hkv
  simpa using hkv.2

theorem dictGet_dictDel_ne {κ β : Type} [DecidableEq κ] (d : List (κ × β)) (k q : κ)
    (h : ¬ q = k) : dictGet (dictDel d k) q = dictGet d q := by
  induction d with
  | nil => rfl
  | cons kv rest ih =>
    by_cases hk : kv.1 = k
    · have hstep : dictDel (kv :: rest) k = dictDel rest k := by
        simp [dictDel, List.filter_cons, hk]
      rw [hstep, ih, dictGet_cons, if_neg (fun hc => h (hc.symm.trans hk))]
    · have hstep : dictDel (kv :: rest) k = kv :: dictDel rest k := by
        simp [dictDel, List.filter_cons, hk]
      rw [hstep, dictGet_cons, dictGet_cons, ih]

/-- C7: on every reachable state, removing an existing process empties exactly
the frames owned by that pid (as many as it has resident pages), deletes
exactly its residency entries, deletes its descriptor, and leaves every other
process's descriptor, residency entries, and frames unchanged. -/
theorem c7_remove_exact (F : Nat) (ops : List Op) (pid : Nat)
    (hp : (dictGet (runOps F ops).processes pid).isSome) :
    (remove_process (runOps F ops) pid).1 = .ok
    ∧ (∀ i, frameAt (remove_process (runOps F ops) pid).2 i
        = if frameOwned pid (frameAt (runOps F ops) i) then none
          else frameAt (runOps F ops) i)
    ∧ (runOps F ops).memory.countP (fun o => frameOwned pid o)
        = (runOps F ops).page_table.countP (fun kv => kv.1.1 == pid)
    ∧ (remove_process (runOps F ops) pid).2.page_table
        = (runOps F ops).page_table.filter (fun kv => ¬ kv.1.1 = pid)
    ∧ dictGet (remove_process (runOps F ops) pid).2.processes pid = none
    ∧ (∀ q, ¬ q = pid → dictGet (remove_process (runOps F ops) pid).2.processes q
        = dictGet (runOps F ops).processes q) := by
  have h := coreInv_runOps F ops
  set m := runOps F ops with hm
  have hp' : ¬ (dictGet m.processes pid).isNone := by
    rw [Option.isNone_iff_eq_none]
    intro hc
    rw [hc] at hp
    cases hp
  have hne : (remove_process m pid)
      = (.ok, add_log { freeFrames pid (List.range m.memory.length) m with
          page_table := (freeFrames pid (List.range m.memory.length) m).page_table.filter
            (fun kv => ¬ kv.1.1 = pid)
          processes := dictDel (freeFrames pid (List.range m.memory.length) m).processes pid }
          (.terminated pid)) := by
    unfold remove_process
    rw [if_neg hp']
  rcases freeFrames_fields pid (List.range m.memory.length) m with
    ⟨_, hpt1, hproc1, _, _, _, _, _⟩
  refine ⟨by rw [hne], ?_, coreInv_count_pid m h pid, ?_, ?_, ?_⟩
  · intro i
    have : frameAt (remove_process m pid).2 i
        = frameAt (freeFrames pid (List.range m.memory.length) m) i := by
      rw [hne]
      rfl
    rw [this]
    exact freeFrames_frameAt m pid h.q_nodup i
  · rw [hne]
    show (freeFrames pid (List.range m.memory.length) m).page_table.filter _ = _
    rw [hpt1]
  · rw [hne]
    show dictGet (dictDel (freeFrames pid (List.range m.memory.length) m).processes pid) pid
      = none
    exact dictGet_dictDel_self _ pid
  · intro q hq
    rw [hne]
    show dictGet (dictDel (freeFrames pid (List.range m.memory.length) m).processes pid) q = _
    rw [dictGet_dictDel_ne _ _ _ hq, hproc1]

/-- C7 witness: with two frames, one resident page of process 1 and a second
process present, removing process 1 succeeds, frees exactly its one frame and
leaves process 2's descriptor readable. -/
theorem c7_remove_exact_witness :
    (remove_process (runOps 2 [.create 2, .access 1 0 .fifo, .create 1]) 1).1 = .ok
    ∧ (runOps 2 [.create 2, .access 1 0 .fifo, .create 1]).memory.countP
        (fun o => frameOwned 1 o)
      = (runOps 2 [.create 2, .access 1 0 .fifo, .create 1]).page_table.countP
        (fun kv => kv.1.1 == 1)
    ∧ frameAt (remove_process (runOps 2 [.create 2, .access 1 0 .fifo, .create 1]) 1).2 0
        = none
    ∧ dictGet (remove_process
        (runOps 2 [.create 2, .access 1 0 .fifo, .create 1]) 1).2.processes 2
      = dictGet (runOps 2 [.create 2, .access 1 0 .fifo, .create 1]).processes 2 := by
  have h := c7_remove_exact 2 [.create 2, .access 1 0 .fifo, .create 1] 1 (by decide)
  refine ⟨h.1, h.2.2.1, ?_, h.2.2.2.2.2 2 (by decide)⟩
  rw [h.2.1 0]
  decide

/-! ### Claim C10 -/

/-- No process descriptor's per-page `frame_num` field is ever set: residency
is tracked only in `page_table`. -/
def pagesClean (m : MemoryManager) : Prop :=
  ∀ p ∈ m.processes, ∀ pg ∈ p.2.pages, pg.2 = none

theorem pagesClean_create (m : MemoryManager) (size : Nat) (h : pagesClean m) :
    pagesClean (create_process m size).2 := by
  intro p hp pg hpg
  have hp' : p ∈ dictSet m.processes m.process_counter
      { pid := m.process_counter, size := size
        pages := (List.range size).map (fun i => (i, none))
        color := (m.process_counter * 137) % 360 } := hp
  have hclean : ∀ pg' ∈ (List.range size).map
      (fun i => ((i : Nat), (none : Option Nat))), pg'.2 = none := by
    intro pg' hpg'
    rcases List.mem_map.mp hpg' with ⟨i, _, rfl⟩
    rfl
  unfold dictSet at hp'
  split at hp'
  · rcases List.mem_map.mp hp' with ⟨q, hq, hfq⟩
    by_cases hc : q.1 = m.process_counter
    · rw [if_pos hc] at hfq
      rw [← hfq] at hpg
      exact hclean pg hpg
    · rw [if_neg hc] at hfq
      rw [← hfq] at hpg
      exact h q hq pg hpg
  · rcases List.mem_append.mp hp' with hold | hnew
    · exact h p hold pg hpg
    · rcases List.mem_singleton.mp hnew with rfl
      exact hclean pg hpg

theorem remove_process_processes (m : MemoryManager) (pid : Nat) :
    (remove_process m pid).2.processes = m.processes
    ∨ (remove_process m pid).2.processes = dictDel m.processes pid := by
  unfold remove_process
  by_cases hp : (dictGet m.processes pid).isNone
  · rw [if_pos hp]
    exact Or.inl rfl
  · rw [if_neg hp]
    right
    show dictDel (freeFrames pid (List.range m.memory.length) m).processes pid = _
    rw [(freeFrames_fields pid (List.range m.memory.length) m).2.2.1]

theorem pagesClean_applyOp (m : MemoryManager) (op : Op) (h : pagesClean m) :
    pagesClean (applyOp m op) := by
  cases op with
  | create size => exact pagesClean_create m size h
  | access pid pg a =>
    intro p hp
    unfold applyOp at hp
    rw [allocate_page_processes m pid pg a] at hp
    exact h p hp
  | remove pid =>
    intro p hp
    unfold applyOp at hp
    rcases remove_process_processes m pid with hc | hc
    · rw [hc] at hp
      exact h p hp
    · rw [hc] at hp
      exact h p (List.mem_of_mem_filter hp)
  | reset =>
    intro p hp
    cases hp

theorem pagesClean_runOps (F : Nat) (ops : List Op) : pagesClean (runOps F ops) := by
  have hgen : ∀ (l : List Op) (m : MemoryManager), pagesClean m →
      pagesClean (l.foldl applyOp m) := by
    intro l
    induction l with
    | nil => exact fun m h => h
    | cons op rest ih => exact fun m h => ih _ (pagesClean_applyOp m op h)
  exact hgen ops (mkManager F) (fun p hp => by cases hp)

/-- C10: in every reachable state, every process descriptor still shows
`frame_num = None` for all of its pages — no operation ever writes residency
back into the descriptor. -/
theorem c10_descriptor_never_updated (F : Nat) (ops : List Op) :
    ∀ p ∈ (runOps F ops).processes, ∀ pg ∈ p.2.pages, pg.2 = none :=
  pagesClean_runOps F ops

/-- C10 witness: the single descriptor after one creation, with all frame
fields `None`, instantiating the theorem at a concrete state. -/
theorem c10_descriptor_never_updated_witness :
    ((0 : Nat), (none : Option Nat)).2 = none :=
  c10_descriptor_never_updated 1 [.create 2]
    (1, { pid := 1, size := 2, pages := [(0, none), (1, none)], color := 137 })
    (by decide) (0, none) (by decide)

/-! ### Claim C4 -/

/-- Everything occupied is queued (the half of invariant 4 that only holds for
FIFO-only runs; the other half is `CoreInv.q_occ`). -/
def occSub (m : MemoryManager) : Prop :=
  ∀ i, (frameAt m i).isSome → i ∈ m.allocation_queue

/-- An operation sequence that never accesses a page under the LRU policy. -/
def FifoOnly : Op → Bool
  | .access _ _ a => a == .fifo
  | _ => true

theorem occSub_of_eq (m m' : MemoryManager) (hm : m'.memory = m.memory)
    (hq : m'.allocation_queue = m.allocation_queue) (h : occSub m) : occSub m' := by
  intro i hi
  rw [hq]
  refine h i ?_
  rw [show frameAt m' i = frameAt m i from by unfold frameAt; rw [hm]] at hi
  exact hi

theorem occSub_reset (m : MemoryManager) : occSub (reset m) := by
  intro i hi
  rw [show frameAt (reset m) i = none from getD_replicate_none _ i] at hi
  cases hi

theorem occSub_allocate_page_fifo (m : MemoryManager) (pid pg : Nat)
    (h : CoreInv m) (hs : occSub m) : occSub (allocate_page m pid pg .fifo).2 := by
  unfold allocate_page
  by_cases hp : (dictGet m.processes pid).isNone
  · rw [if_pos hp]
    exact hs
  · rw [if_neg hp]
    cases hpt : dictGet m.page_table (pid, pg) with
    | some e => exact occSub_of_eq m _ rfl rfl hs
    | none =>
      show occSub (faultAlloc { m with stats_faults := m.stats_faults + 1 } pid pg .fifo).2
      set m1 : MemoryManager := { m with stats_faults := m.stats_faults + 1 } with hm1
      have h1 : CoreInv m1 := coreInv_of_eq m m1 h rfl rfl rfl rfl
      have hs1 : occSub m1 := occSub_of_eq m m1 rfl rfl hs
      clear_value m1
      clear hpt hp h hs hm1
      unfold faultAlloc
      cases hff : find_free_frame m1.memory with
      | some f =>
        dsimp only
        rcases finishAlloc_state m1 pid pg .fifo f with ⟨hmem, _, hq, _⟩
        rw [if_pos rfl] at hq
        intro i hi
        rw [hq]
        by_cases hif : i = f
        · exact List.mem_append.mpr (Or.inr (List.mem_singleton.mpr hif))
        · refine List.mem_append.mpr (Or.inl (hs1 i ?_))
          rw [show frameAt (finishAlloc m1 pid pg .fifo f) i
            = (m1.memory.set f _).getD i none from by unfold frameAt; rw [hmem],
            getD_set_ne _ _ _ _ _ hif] at hi
          exact hi
      | none =>
        cases hv : pickVictim m1 .fifo with
        | none => exact hs1
        | some f =>
          dsimp only
          have hf : f ∈ m1.allocation_queue :=
            List.mem_of_mem_head? (Option.mem_def.mpr hv)
          have hocc : (frameAt m1 f).isSome := h1.q_occ f hf
          have hfind : ∃ vkv, m1.page_table.find? (fun kv => kv.2.frame_num == f)
              = some vkv := by
            rcases h1.mem_pt f hocc with ⟨kv, hkv, hfr⟩
            exact Option.isSome_iff_exists.mp
              (List.find?_isSome.mpr ⟨kv, hkv, by simp [hfr]⟩)
          rcases hfind with ⟨vkv, hfd⟩
          rcases evict_state m1 .fifo f vkv hfd with ⟨hmem2, _, _, hq2, _, _⟩
          rw [if_pos rfl] at hq2
          rcases finishAlloc_state (evict m1 .fifo f) pid pg .fifo f with ⟨hmem3, _, hq3, _⟩
          rw [if_pos rfl, hq2] at hq3
          intro i hi
          rw [hq3]
          by_cases hif : i = f
          · exact List.mem_append.mpr (Or.inr (List.mem_singleton.mpr hif))
          · refine List.mem_append.mpr (Or.inl ?_)
            have hi' : (frameAt m1 i).isSome := by
              rw [show frameAt (finishAlloc (evict m1 .fifo f) pid pg .fifo f) i
                  = ((evict m1 .fifo f).memory.set f _).getD i none from
                by unfold frameAt; rw [hmem3],
                getD_set_ne _ _ _ _ _ hif] at hi
              rw [show ((evict m1 .fifo f).memory.getD i none) = frameAt m1 i from
                by unfold frameAt; rw [hmem2]] at hi
              exact hi
            exact (List.mem_erase_of_ne hif).mpr (hs1 i hi')

theorem occSub_remove_process (m : MemoryManager) (pid : Nat) (h : CoreInv m)
    (hs : occSub m) : occSub (remove_process m pid).2 := by
  unfold remove_process
  by_cases hp : (dictGet m.processes pid).isNone
  · rw [if_pos hp]
    exact hs
  · rw [if_neg hp]
    rcases freeFrames_mem_queue pid (List.range m.memory.length) m
      (List.nodup_range _) h.q_nodup with ⟨_, hfa, hq, _⟩
    intro i hi
    have hi1 : (frameAt (freeFrames pid (List.range m.memory.length) m) i).isSome := hi
    rw [hfa i] at hi1
    by_cases hc : i ∈ List.range m.memory.length ∧ frameOwned pid (frameAt m i) = true
    · rw [if_pos hc] at hi1
      cases hi1
    · rw [if_neg hc] at hi1
      show i ∈ (freeFrames pid (List.range m.memory.length) m).allocation_queue
      rw [hq i]
      exact ⟨hs i hi1, hc⟩

/-- Combined FIFO-only invariant induction. -/
theorem fifoInv_foldl (ops : List Op) :
    ∀ m : MemoryManager, CoreInv m → occSub m → (∀ op ∈ ops, FifoOnly op = true) →
    CoreInv (ops.foldl applyOp m) ∧ occSub (ops.foldl applyOp m) := by
  induction ops with
  | nil => exact fun m h hs _ => ⟨h, hs⟩
  | cons op rest ih =>
    intro m h hs hf
    refine ih (applyOp m op) (coreInv_applyOp m op h) ?_
      (fun o ho => hf o (List.mem_cons_of_mem op ho))
    have hop := hf op (List.mem_cons_self op rest)
    cases op with
    | create size => exact occSub_of_eq m _ rfl rfl hs
    | access pid pg a =>
      have ha : a = .fifo := by
        cases a with
        | fifo => rfl
        | lru => cases hop
      rw [ha]
      exact occSub_allocate_page_fifo m pid pg h hs
    | remove pid => exact occSub_remove_process m pid h hs
    | reset => exact occSub_reset m

/-- C4 (amended): for operation sequences whose page accesses all use the FIFO
policy, the set of frame indices in the allocation queue equals the set of
occupied frame indices after every operation. -/
theorem c4_fifo_queue_eq_occupied (F : Nat) (ops : List Op)
    (hf : ∀ op ∈ ops, FifoOnly op = true) :
    ∀ i, i ∈ (runOps F ops).allocation_queue ↔ (frameAt (runOps F ops) i).isSome := by
  rcases fifoInv_foldl ops (mkManager F) (coreInv_mkManager F)
    (occSub_reset (mkManager F)) hf with ⟨hc, hsub⟩
  intro i
  exact ⟨fun hi => hc.q_occ i hi, fun hi => hsub i hi⟩

/-- C4 witness: after one FIFO access on a one-frame manager, frame 0 is both
occupied and queued. -/
theorem c4_fifo_queue_eq_occupied_witness :
    0 ∈ (runOps 1 [.create 2, .access 1 0 .fifo]).allocation_queue
      ↔ (frameAt (runOps 1 [.create 2, .access 1 0 .fifo]) 0).isSome :=
  c4_fifo_queue_eq_occupied 1 [.create 2, .access 1 0 .fifo] (by decide) 0

/-- C4 counterexample: the claim as stated (for either policy) fails — after a
single LRU access the frame is occupied but the FIFO queue stays empty. -/
theorem c4_counterexample :
    ¬ (∀ i, i ∈ (runOps 1 [.create 2, .access 1 0 .lru]).allocation_queue
        ↔ (frameAt (runOps 1 [.create 2, .access 1 0 .lru]) i).isSome) := by
  intro hc
  have h0 : (frameAt (runOps 1 [.create 2, .access 1 0 .lru]) 0).isSome := by decide
  have h1 : 0 ∈ (runOps 1 [.create 2, .access 1 0 .lru]).allocation_queue :=
    (hc 0).mpr h0
  have h2 : (runOps 1 [.create 2, .access 1 0 .lru]).allocation_queue = [] := by decide
  rw [h2] at h1
  cases h1

/-! ### Claim C2: FIFO eviction order -/

/-- A manager state with no resident pages, no occupied frame, and an empty
queue — exactly what any number of `create_process` calls on a fresh manager
with `memory_size = F` produce. -/
def CleanState (m : MemoryManager) (F : Nat) : Prop :=
  m.memory_size = F ∧ m.memory = List.replicate F none
    ∧ m.page_table = [] ∧ m.allocation_queue = []

/-- Symbolic state after faulting the distinct pages `ks` (in order) under the
FIFO policy from a clean state: page `ks[i]` sits in frame `i`, the queue is
`[0, …, |ks|-1]`, and the page-table rows appear in fault order with those
frames. -/
structure FifoShape (m0 : MemoryManager) (ks : List (Nat × Nat))
    (m : MemoryManager) : Prop where
  mem : m.memory = ks.map (fun k => some ⟨k.1, k.2, procColor m0 k.1⟩)
      ++ List.replicate (m0.memory_size - ks.length) none
  keys : m.page_table.map Prod.fst = ks
  frames : m.page_table.map (fun kv => kv.2.frame_num) = List.range ks.length
  queue : m.allocation_queue = List.range ks.length
  procs : m.processes = m0.processes
  msize : m.memory_size = m0.memory_size

theorem fifoShape_base (m0 : MemoryManager) (F : Nat) (h0 : CleanState m0 F) :
    FifoShape m0 [] m0 := by
  rcases h0 with ⟨hsz, hmem, hpt, hq⟩
  exact ⟨by rw [hmem, hsz]; rfl, by rw [hpt]; rfl, by rw [hpt]; rfl, hq, rfl, rfl⟩

theorem dictGet_of_keys_not_mem {d : List ((Nat × Nat) × PTE)} {ks : List (Nat × Nat)}
    {k : Nat × Nat} (hkeys : d.map Prod.fst = ks) (hk : k ∉ ks) :
    dictGet d k = none := by
  rw [dictGet_eq_none]
  intro kv hkv hc
  exact hk (hkeys ▸ (hc ▸ List.mem_map_of_mem Prod.fst hkv))

theorem dictGet_of_keys_mem {d : List ((Nat × Nat) × PTE)} {ks : List (Nat × Nat)}
    {k : Nat × Nat} (hkeys : d.map Prod.fst = ks) (hk : k ∈ ks) :
    ∃ e, dictGet d k = some e := by
  refine Option.isSome_iff_exists.mp (dictGet_isSome.mpr ?_)
  rw [← hkeys] at hk
  rcases List.mem_map.mp hk with ⟨kv, hkv, hfk⟩
  exact ⟨kv, hkv, hfk⟩

theorem find_free_frame_all_some (A : List (Option Frame)) (h : ∀ o ∈ A, o.isSome) :
    find_free_frame A = none := by
  induction A with
  | nil => rfl
  | cons o t ih =>
    cases o with
    | none => cases h none (List.mem_cons_self none t)
    | some fr =>
      unfold find_free_frame
      rw [ih (fun o ho => h o (List.mem_cons_of_mem _ ho))]
      rfl

theorem find_free_frame_boundary (A : List (Option Frame)) (t : List (Option Frame))
    (h : ∀ o ∈ A, o.isSome) :
    find_free_frame (A ++ none :: t) = some A.length := by
  induction A with
  | nil => rfl
  | cons o s ih =>
    cases o with
    | none => cases h none (List.mem_cons_self none s)
    | some fr =>
      show (find_free_frame (s ++ none :: t)).map (· + 1) = some (s.length + 1)
      rw [ih (fun o ho => h o (List.mem_cons_of_mem _ ho))]
      rfl

theorem map_some_all_isSome (m0 : MemoryManager) (ks : List (Nat × Nat)) :
    ∀ o ∈ ks.map (fun k => some (⟨k.1, k.2, procColor m0 k.1⟩ : Frame)), o.isSome := by
  intro o ho
  rcases List.mem_map.mp ho with ⟨k, _, rfl⟩
  rfl

theorem set_append_boundary {α : Type} (A : List α) (x : α) (t : List α) (v : α) :
    (A ++ x :: t).set A.length v = A ++ v :: t := by
  induction A with
  | nil => rfl
  | cons a s ih => simp [ih]

theorem set_append_boundary2 {α : Type} (A : List α) (x : α) (t : List α) (v : α)
    (n : Nat) (h : n = A.length) : (A ++ x :: t).set n v = A ++ v :: t := by
  rw [h]
  exact set_append_boundary A x t v

theorem dictGet_append {κ β : Type} [DecidableEq κ] (d1 d2 : List (κ × β)) (k : κ) :
    dictGet (d1 ++ d2) k
      = match dictGet d1 k with
        | some v => some v
        | none => dictGet d2 k := by
  induction d1 with
  | nil => rfl
  | cons kv rest ih =>
    rw [List.cons_append, dictGet_cons, dictGet_cons]
    by_cases hc : kv.1 = k
    · rw [if_pos hc, if_pos hc]
    · rw [if_neg hc, if_neg hc, ih]

theorem finishAlloc_clock (m : MemoryManager) (pid pg : Nat) (a : Algo) (f : Nat) :
    (finishAlloc m pid pg a f).clock = m.clock + 2 := by
  cases a <;> rfl

/-- One more FIFO fault on a fresh page while a free frame remains. -/
theorem fifoShape_step (m0 : MemoryManager) (ks : List (Nat × Nat))
    (m : MemoryManager) (k : Nat × Nat)
    (hsh : FifoShape m0 ks m)
    (hlt : ks.length < m0.memory_size)
    (hnew : k ∉ ks)
    (hpid : (dictGet m0.processes k.1).isSome) :
    (allocate_page m k.1 k.2 .fifo).1 = .fault
    ∧ FifoShape m0 (ks ++ [k]) (allocate_page m k.1 k.2 .fifo).2 := by
  have hpid' : ¬ (dictGet m.processes k.1).isNone = true := by
    rw [hsh.procs, Option.isNone_iff_eq_none]
    intro hc
    rw [hc] at hpid
    cases hpid
  have hmiss : dictGet m.page_table (k.1, k.2) = none :=
    dictGet_of_keys_not_mem hsh.keys (by simpa using hnew)
  have hrep : m0.memory_size - ks.length
      = (m0.memory_size - (ks.length + 1)) + 1 := by omega
  have hfree : find_free_frame m.memory = some ks.length := by
    rw [hsh.mem, hrep, List.replicate_succ]
    have := find_free_frame_boundary
      (ks.map (fun k => some (⟨k.1, k.2, procColor m0 k.1⟩ : Frame)))
      (List.replicate (m0.memory_size - (ks.length + 1)) none)
      (map_some_all_isSome m0 ks)
    rw [this, List.length_map]
  have hred : allocate_page m k.1 k.2 .fifo
      = (.fault, finishAlloc { m with stats_faults := m.stats_faults + 1 }
          k.1 k.2 .fifo ks.length) := by
    unfold allocate_page
    rw [if_neg hpid', hmiss]
    unfold faultAlloc
    rw [show ({ m with stats_faults := m.stats_faults + 1 } :
      MemoryManager).memory = m.memory from rfl, hfree]
  rcases finishAlloc_state { m with stats_faults := m.stats_faults + 1 }
    k.1 k.2 .fifo ks.length with ⟨hmem, hpt, hq, _⟩
  rw [if_pos rfl] at hq
  rw [dictSet_of_none hmiss] at hpt
  refine ⟨by rw [hred], ?_, ?_, ?_, ?_, ?_, ?_⟩
  · show (allocate_page m k.1 k.2 .fifo).2.memory = _
    rw [hred]
    show (finishAlloc _ k.1 k.2 .fifo ks.length).memory = _
    rw [hmem]
    have hcol : procColor { m with stats_faults := m.stats_faults + 1 } k.1
        = procColor m0 k.1 := by
      unfold procColor
      rw [show ({ m with stats_faults := m.stats_faults + 1 } :
        MemoryManager).processes = m.processes from rfl, hsh.procs]
    rw [hcol]
    rw [show ({ m with stats_faults := m.stats_faults + 1 } :
      MemoryManager).memory = m.memory from rfl, hsh.mem, hrep, List.replicate_succ]
    rw [set_append_boundary2 _ _ _ _ ks.length (by rw [List.length_map])]
    rw [List.map_append, List.length_append, List.length_singleton, List.append_assoc]
    rfl
  · show (allocate_page m k.1 k.2 .fifo).2.page_table.map Prod.fst = _
    rw [hred]
    show (finishAlloc _ k.1 k.2 .fifo ks.length).page_table.map Prod.fst = _
    rw [hpt, List.map_append]
    rw [show ({ m with stats_faults := m.stats_faults + 1 } :
      MemoryManager).page_table = m.page_table from rfl, hsh.keys]
    rfl
  · show (allocate_page m k.1 k.2 .fifo).2.page_table.map _ = _
    rw [hred]
    show (finishAlloc _ k.1 k.2 .fifo ks.length).page_table.map _ = _
    rw [hpt, List.map_append]
    rw [show ({ m with stats_faults := m.stats_faults + 1 } :
      MemoryManager).page_table = m.page_table from rfl, hsh.frames]
    rw [List.length_append, List.length_singleton, List.range_succ]
    rfl
  · show (allocate_page m k.1 k.2 .fifo).2.allocation_queue = _
    rw [hred]
    show (finishAlloc _ k.1 k.2 .fifo ks.length).allocation_queue = _
    rw [hq]
    rw [show ({ m with stats_faults := m.stats_faults + 1 } :
      MemoryManager).allocation_queue = m.allocation_queue from rfl, hsh.queue]
    rw [List.length_append, List.length_singleton, List.range_succ]
  · show (allocate_page m k.1 k.2 .fifo).2.processes = _
    rw [allocate_page_processes, hsh.procs]
  · show (allocate_page m k.1 k.2 .fifo).2.memory_size = _
    rw [hred]
    show (finishAlloc _ k.1 k.2 .fifo ks.length).memory_size = _
    rw [(finishAlloc_state _ k.1 k.2 .fifo ks.length).2.2.2]
    exact hsh.msize

/-- Running the fault phase: each access to a fresh distinct page faults. -/
theorem runTrace_fill (m0 : MemoryManager) (news : List (Nat × Nat)) :
    ∀ (ks : List (Nat × Nat)) (m : MemoryManager), FifoShape m0 ks m →
    (ks ++ news).Nodup →
    ks.length + news.length ≤ m0.memory_size →
    (∀ k ∈ news, (dictGet m0.processes k.1).isSome) →
    (runTrace m .fifo news).1 = List.replicate news.length .fault
    ∧ FifoShape m0 (ks ++ news) (runTrace m .fifo news).2 := by
  induction news with
  | nil =>
    intro ks m hsh _ _ _
    exact ⟨rfl, by rw [List.append_nil]; exact hsh⟩
  | cons k rest ih =>
    intro ks m hsh hnd hle hp
    have hknotin : k ∉ ks := by
      intro hc
      have hdisj := (List.nodup_append.mp hnd).2.2
      exact hdisj hc (List.mem_cons_self k rest)
    have hlt : ks.length < m0.memory_size := by
      have : rest.length + 1 = (k :: rest).length := rfl
      omega
    rcases fifoShape_step m0 ks m k hsh hlt hknotin
      (hp k (List.mem_cons_self k rest)) with ⟨hres, hsh'⟩
    have hnd' : ((ks ++ [k]) ++ rest).Nodup := by
      rw [List.append_assoc]
      exact hnd
    have hle' : (ks ++ [k]).length + rest.length ≤ m0.memory_size := by
      rw [List.length_append, List.length_singleton]
      have : (k :: rest).length = rest.length + 1 := rfl
      omega
    rcases ih (ks ++ [k]) (allocate_page m k.1 k.2 .fifo).2 hsh' hnd' hle'
      (fun k' hk' => hp k' (List.mem_cons_of_mem k hk')) with ⟨htr, hsh''⟩
    constructor
    · show (allocate_page m k.1 k.2 .fifo).1
        :: (runTrace (allocate_page m k.1 k.2 .fifo).2 .fifo rest).1 = _
      rw [hres, htr]
      rfl
    · show FifoShape m0 (ks ++ k :: rest)
        (runTrace (allocate_page m k.1 k.2 .fifo).2 .fifo rest).2
      rw [show ks ++ k :: rest = (ks ++ [k]) ++ rest from (List.append_assoc ks [k] rest).symm]
      exact hsh''

/-- A FIFO access to a page already faulted in is a `Hit` and keeps the shape
(it only touches `last_used`, the hit counter, the clock and the log). -/
theorem fifoShape_hit (m0 : MemoryManager) (ks : List (Nat × Nat))
    (m : MemoryManager) (k : Nat × Nat)
    (hsh : FifoShape m0 ks m) (hk : k ∈ ks)
    (hpid : (dictGet m0.processes k.1).isSome) :
    (allocate_page m k.1 k.2 .fifo).1 = .hit
    ∧ FifoShape m0 ks (allocate_page m k.1 k.2 .fifo).2 := by
  have hpid' : ¬ (dictGet m.processes k.1).isNone = true := by
    rw [hsh.procs, Option.isNone_iff_eq_none]
    intro hc
    rw [hc] at hpid
    cases hpid
  rcases dictGet_of_keys_mem hsh.keys hk with ⟨e, he⟩
  have hred : allocate_page m k.1 k.2 .fifo
      = (.hit, add_log { m with
          stats_hits := m.stats_hits + 1
          page_table := hitUpdate m.page_table (k.1, k.2) m.clock
          clock := m.clock + 1 } (.pageHit k.1 k.2)) := by
    unfold allocate_page
    rw [if_neg hpid', he]
  refine ⟨by rw [hred], ?_, ?_, ?_, ?_, ?_, ?_⟩
  · show (allocate_page m k.1 k.2 .fifo).2.memory = _
    rw [hred]
    exact hsh.mem
  · show (allocate_page m k.1 k.2 .fifo).2.page_table.map Prod.fst = _
    rw [hred]
    show (hitUpdate m.page_table (k.1, k.2) m.clock).map Prod.fst = _
    rw [hitUpdate_map_fst]
    exact hsh.keys
  · show (allocate_page m k.1 k.2 .fifo).2.page_table.map _ = _
    rw [hred]
    show (hitUpdate m.page_table (k.1, k.2) m.clock).map _ = _
    rw [hitUpdate_map_frame]
    exact hsh.frames
  · show (allocate_page m k.1 k.2 .fifo).2.allocation_queue = _
    rw [hred]
    exact hsh.queue
  · show (allocate_page m k.1 k.2 .fifo).2.processes = _
    rw [hred]
    exact hsh.procs
  · show (allocate_page m k.1 k.2 .fifo).2.memory_size = _
    rw [hred]
    exact hsh.msize

/-- Running any number of hits on already-resident pages. -/
theorem runTrace_hits (m0 : MemoryManager) (hs : List (Nat × Nat))
    (ks : List (Nat × Nat)) :
    ∀ m : MemoryManager, FifoShape m0 ks m →
    (∀ h_ ∈ hs, h_ ∈ ks) →
    (∀ k ∈ ks, (dictGet m0.processes k.1).isSome) →
    (runTrace m .fifo hs).1 = List.replicate hs.length .hit
    ∧ FifoShape m0 ks (runTrace m .fifo hs).2 := by
  induction hs with
  | nil => exact fun m hsh _ _ => ⟨rfl, hsh⟩
  | cons h_ rest ih =>
    intro m hsh hmem hp
    have hin : h_ ∈ ks := hmem h_ (List.mem_cons_self h_ rest)
    rcases fifoShape_hit m0 ks m h_ hsh hin (hp h_ hin) with ⟨hres, hsh'⟩
    rcases ih (allocate_page m h_.1 h_.2 .fifo).2 hsh'
      (fun x hx => hmem x (List.mem_cons_of_mem h_ hx)) hp with ⟨htr, hsh''⟩
    constructor
    · show (allocate_page m h_.1 h_.2 .fifo).1
        :: (runTrace (allocate_page m h_.1 h_.2 .fifo).2 .fifo rest).1 = _
      rw [hres, htr]
      rfl
    · exact hsh''

/-- The (F+1)-th FIFO fault on a full memory evicts the page of the first
fault (frame 0, the queue head), regardless of hits recorded in between. -/
theorem fifoShape_evict (m0 : MemoryManager) (k1 : Nat × Nat) (krest : List (Nat × Nat))
    (m : MemoryManager) (kf : Nat × Nat)
    (hsh : FifoShape m0 (k1 :: krest) m)
    (hfull : m0.memory_size = (k1 :: krest).length)
    (hnew : kf ∉ k1 :: krest)
    (hpid : (dictGet m0.processes kf.1).isSome) :
    (∃ e1, dictGet m.page_table k1 = some e1 ∧ e1.frame_num = 0)
    ∧ (allocate_page m kf.1 kf.2 .fifo).1 = .fault
    ∧ dictGet (allocate_page m kf.1 kf.2 .fifo).2.page_table k1 = none
    ∧ (∃ e, dictGet (allocate_page m kf.1 kf.2 .fifo).2.page_table kf = some e
        ∧ e.frame_num = 0)
    ∧ frameAt (allocate_page m kf.1 kf.2 .fifo).2 0
        = some ⟨kf.1, kf.2, procColor m0 kf.1⟩ := by
  have hek : ((kf.1, kf.2) : Nat × Nat) = kf := rfl
  have hpid' : ¬ (dictGet m.processes kf.1).isNone = true := by
    rw [hsh.procs, Option.isNone_iff_eq_none]
    intro hc
    rw [hc] at hpid
    cases hpid
  have hkf1 : ¬ kf = k1 := fun hc => hnew (hc ▸ List.mem_cons_self k1 krest)
  have hmiss : dictGet m.page_table (kf.1, kf.2) = none :=
    dictGet_of_keys_not_mem hsh.keys (by rw [hek]; exact hnew)
  have hkeys := hsh.keys
  have hframes := hsh.frames
  cases hpt : m.page_table with
  | nil =>
    rw [hpt] at hkeys
    cases hkeys
  | cons kv0 ptr =>
    rw [hpt, List.map_cons] at hkeys hframes
    rw [List.length_cons, List.range_succ_eq_map] at hframes
    have hk0 : kv0.1 = k1 := by
      injection hkeys
    have hf0 : kv0.2.frame_num = 0 := by
      injection hframes
    have hff : find_free_frame m.memory = none := by
      rw [hsh.mem, show m0.memory_size - (k1 :: krest).length = 0 from by omega]
      rw [show List.replicate 0 (none : Option Frame) = [] from rfl, List.append_nil]
      exact find_free_frame_all_some _ (map_some_all_isSome m0 _)
    have hvic : pickVictim { m with stats_faults := m.stats_faults + 1 } .fifo
        = some 0 := by
      show ({ m with stats_faults := m.stats_faults + 1 } :
        MemoryManager).allocation_queue.head? = some 0
      rw [show ({ m with stats_faults := m.stats_faults + 1 } :
        MemoryManager).allocation_queue = m.allocation_queue from rfl, hsh.queue,
        List.length_cons, List.range_succ_eq_map]
      rfl
    have hfd : ({ m with stats_faults := m.stats_faults + 1 } :
        MemoryManager).page_table.find? (fun kv => kv.2.frame_num == 0) = some kv0 := by
      show m.page_table.find? _ = some kv0
      rw [hpt]
      exact List.find?_cons_of_pos _ (by simp [hf0])
    rcases evict_state { m with stats_faults := m.stats_faults + 1 } .fifo 0 kv0 hfd with
      ⟨hmem2, _, hpt2, _, hproc2, _⟩
    have hred : allocate_page m kf.1 kf.2 .fifo
        = (.fault, finishAlloc (evict { m with stats_faults := m.stats_faults + 1 }
            .fifo 0) kf.1 kf.2 .fifo 0) := by
      unfold allocate_page
      rw [if_neg hpid', hmiss]
      unfold faultAlloc
      rw [show ({ m with stats_faults := m.stats_faults + 1 } :
        MemoryManager).memory = m.memory from rfl, hff, hvic]
    rcases finishAlloc_state (evict { m with stats_faults := m.stats_faults + 1 } .fifo 0)
      kf.1 kf.2 .fifo 0 with ⟨hmem3, hpt3, _, _⟩
    have hkey2 : dictGet (evict { m with stats_faults := m.stats_faults + 1 }
        .fifo 0).page_table (kf.1, kf.2) = none := by
      rw [hpt2]
      exact dictGet_filter_none hmiss _
    have hpt3' := hpt3
    rw [dictSet_of_none hkey2] at hpt3'
    refine ⟨⟨kv0.2, ?_, hf0⟩, by rw [hred], ?_, ?_, ?_⟩
    · show dictGet (kv0 :: ptr) k1 = some kv0.2
      rw [dictGet_cons, if_pos hk0]
    · show dictGet (allocate_page m kf.1 kf.2 .fifo).2.page_table k1 = none
      rw [hred]
      show dictGet (finishAlloc _ kf.1 kf.2 .fifo 0).page_table k1 = none
      rw [hpt3', dictGet_append]
      have h1 : dictGet (evict { m with stats_faults := m.stats_faults + 1 }
          .fifo 0).page_table k1 = none := by
        rw [hpt2, dictGet_eq_none]
        intro kv hkv hc
        rw [List.mem_filter] at hkv
        have hne : ¬ kv.1 = kv0.1 := by simpa using hkv.2
        exact hne (hc.trans hk0.symm)
      rw [h1, dictGet_cons, if_neg (fun hc => hkf1 hc)]
      rfl
    · refine ⟨⟨0, (evict { m with stats_faults := m.stats_faults + 1 } .fifo 0).clock,
        (evict { m with stats_faults := m.stats_faults + 1 } .fifo 0).clock⟩, ?_, rfl⟩
      show dictGet (allocate_page m kf.1 kf.2 .fifo).2.page_table kf = _
      rw [hred, ← hek]
      show dictGet (finishAlloc _ kf.1 kf.2 .fifo 0).page_table (kf.1, kf.2) = _
      rw [hpt3]
      exact dictGet_dictSet_self
    · show frameAt (allocate_page m kf.1 kf.2 .fifo).2 0 = _
      rw [hred]
      show frameAt (finishAlloc _ kf.1 kf.2 .fifo 0) 0 = _
      unfold frameAt
      rw [hmem3]
      have hlen : 0 < (evict { m with stats_faults := m.stats_faults + 1 }
          .fifo 0).memory.length := by
        rw [hmem2]
        show 0 < m.memory.length
        rw [hsh.mem, List.length_append, List.length_map, List.length_cons]
        omega
      rw [getD_set_self _ _ _ _ hlen]
      have hcol : procColor (evict { m with stats_faults := m.stats_faults + 1 }
          .fifo 0) kf.1 = procColor m0 kf.1 := by
        unfold procColor
        rw [hproc2, show ({ m with stats_faults := m.stats_faults + 1 } :
          MemoryManager).processes = m.processes from rfl, hsh.procs]
      rw [hcol]

/-- C2: starting from a clean manager with `F` frames, faulting `F` distinct
pages under FIFO, then performing any number of hits on resident pages, the
next access to a fresh page faults and evicts exactly the page of the first
fault (which sat in frame 0), regardless of the hits in between. -/
theorem c2_fifo_evicts_first (m0 : MemoryManager) (F : Nat)
    (h0 : CleanState m0 F)
    (k1 : Nat × Nat) (krest : List (Nat × Nat))
    (hlen : (k1 :: krest).length = F)
    (hnd : (k1 :: krest).Nodup)
    (hpids : ∀ k ∈ k1 :: krest, (dictGet m0.processes k.1).isSome)
    (hs : List (Nat × Nat)) (hhs : ∀ h_ ∈ hs, h_ ∈ k1 :: krest)
    (kf : Nat × Nat) (hkf : kf ∉ k1 :: krest)
    (hkfpid : (dictGet m0.processes kf.1).isSome) :
    (runTrace m0 .fifo (k1 :: krest)).1 = List.replicate F .fault
    ∧ (runTrace (runTrace m0 .fifo (k1 :: krest)).2 .fifo hs).1
        = List.replicate hs.length .hit
    ∧ (∃ e1, dictGet (runTrace (runTrace m0 .fifo (k1 :: krest)).2 .fifo hs).2.page_table
        k1 = some e1 ∧ e1.frame_num = 0)
    ∧ (allocate_page (runTrace (runTrace m0 .fifo (k1 :: krest)).2 .fifo hs).2
        kf.1 kf.2 .fifo).1 = .fault
    ∧ dictGet (allocate_page (runTrace (runTrace m0 .fifo (k1 :: krest)).2 .fifo hs).2
        kf.1 kf.2 .fifo).2.page_table k1 = none
    ∧ (∃ e, dictGet (allocate_page (runTrace (runTrace m0 .fifo (k1 :: krest)).2 .fifo hs).2
        kf.1 kf.2 .fifo).2.page_table kf = some e ∧ e.frame_num = 0)
    ∧ frameAt (allocate_page (runTrace (runTrace m0 .fifo (k1 :: krest)).2 .fifo hs).2
        kf.1 kf.2 .fifo).2 0 = some ⟨kf.1, kf.2, procColor m0 kf.1⟩ := by
  have hbase : FifoShape m0 [] m0 := fifoShape_base m0 F h0
  have hle : List.length ([] : List (Nat × Nat)) + (k1 :: krest).length
      ≤ m0.memory_size := by
    have hms := h0.1
    simp only [List.length_nil, Nat.zero_add]
    omega
  rcases runTrace_fill m0 (k1 :: krest) [] m0 hbase hnd hle hpids with ⟨htr1, hsh1⟩
  have hsh1' : FifoShape m0 (k1 :: krest) (runTrace m0 .fifo (k1 :: krest)).2 := hsh1
  rcases runTrace_hits m0 hs (k1 :: krest) (runTrace m0 .fifo (k1 :: krest)).2
    hsh1' hhs hpids with ⟨htr2, hsh2⟩
  have hfull : m0.memory_size = (k1 :: krest).length := by
    have hms := h0.1
    omega
  rcases fifoShape_evict m0 k1 krest (runTrace (runTrace m0 .fifo (k1 :: krest)).2 .fifo hs).2
    kf hsh2 hfull hkf hkfpid with ⟨hres1, hres2, hres3, hres4, hres5⟩
  rw [hlen] at htr1
  exact ⟨htr1, htr2, hres1, hres2, hres3, hres4, hres5⟩

/-- C2 witness: the specification's concrete scenario — two frames, P1 faults
pages 0 and 1, hits page 0, then P2's page 0 faults and evicts P1-page-0 from
frame 0 despite the hit. -/
theorem c2_fifo_evicts_first_witness :
    (runTrace (runOps 2 [.create 2, .create 1]) .fifo [(1, 0), (1, 1)]).1
      = List.replicate 2 .fault
    ∧ (runTrace (runTrace (runOps 2 [.create 2, .create 1]) .fifo [(1, 0), (1, 1)]).2
        .fifo [(1, 0)]).1 = List.replicate 1 .hit
    ∧ (allocate_page (runTrace (runTrace (runOps 2 [.create 2, .create 1])
        .fifo [(1, 0), (1, 1)]).2 .fifo [(1, 0)]).2 2 0 .fifo).1 = .fault
    ∧ dictGet (allocate_page (runTrace (runTrace (runOps 2 [.create 2, .create 1])
        .fifo [(1, 0), (1, 1)]).2 .fifo [(1, 0)]).2 2 0 .fifo).2.page_table (1, 0) = none
    ∧ frameAt (allocate_page (runTrace (runTrace (runOps 2 [.create 2, .create 1])
        .fifo [(1, 0), (1, 1)]).2 .fifo [(1, 0)]).2 2 0 .fifo).2 0
      = some ⟨2, 0, procColor (runOps 2 [.create 2, .create 1]) 2⟩ := by
  have h := c2_fifo_evicts_first (runOps 2 [.create 2, .create 1]) 2
    ⟨by decide, by decide, by decide, by decide⟩
    (1, 0) [(1, 1)] (by decide) (by decide) (by decide)
    [(1, 0)] (by decide) (2, 0) (by decide) (by decide)
  exact ⟨h.1, h.2.1, h.2.2.2.1, h.2.2.2.2.1, h.2.2.2.2.2.2⟩

/-! ### Claim C3: LRU protects pages refreshed by hits -/

/-- Page-table rows produced by faulting `ks` in order under LRU, starting at
frame `i` with the logical clock at `c0 + 2*i` (each fault consumes two clock
ticks: the allocation timestamp and the log timestamp). -/
def lruPT (c0 : Nat) : List (Nat × Nat) → Nat → List ((Nat × Nat) × PTE)
  | [], _ => []
  | k :: rest, i => (k, ⟨i, c0 + 2 * i, c0 + 2 * i⟩) :: lruPT c0 rest (i + 1)

theorem lruPT_keys (c0 : Nat) (ks : List (Nat × Nat)) :
    ∀ i, (lruPT c0 ks i).map Prod.fst = ks := by
  induction ks with
  | nil => intro i; rfl
  | cons k rest ih =>
    intro i
    show k :: (lruPT c0 rest (i + 1)).map Prod.fst = _
    rw [ih]

theorem lruPT_append_one (c0 : Nat) (k : Nat × Nat) (ks : List (Nat × Nat)) :
    ∀ i, lruPT c0 (ks ++ [k]) i
      = lruPT c0 ks i
        ++ [(k, ⟨i + ks.length, c0 + 2 * (i + ks.length), c0 + 2 * (i + ks.length)⟩)] := by
  induction ks with
  | nil =>
    intro i
    show (k, (⟨i, c0 + 2 * i, c0 + 2 * i⟩ : PTE)) :: [] = _
    rw [show i + List.length ([] : List (Nat × Nat)) = i from rfl]
    rfl
  | cons k2 rest ih =>
    intro i
    show (k2, (⟨i, c0 + 2 * i, c0 + 2 * i⟩ : PTE)) :: lruPT c0 (rest ++ [k]) (i + 1) = _
    rw [ih (i + 1),
      show (i + 1) + rest.length = i + (k2 :: rest).length from by
        rw [List.length_cons]; omega]
    rfl

theorem lruPT_last_used_ge (c0 : Nat) (ks : List (Nat × Nat)) :
    ∀ i, ∀ kv ∈ lruPT c0 ks i, c0 + 2 * i ≤ kv.2.last_used := by
  induction ks with
  | nil => intro i kv hkv; cases hkv
  | cons k rest ih =>
    intro i kv hkv
    rcases List.mem_cons.mp hkv with rfl | hkv'
    · exact Nat.le_refl _
    · have := ih (i + 1) kv hkv'
      omega

/-- Symbolic state after faulting the distinct pages `ks` under LRU from a
clean state with initial clock `c0`. -/
structure LruShape (m0 : MemoryManager) (ks : List (Nat × Nat)) (c0 : Nat)
    (m : MemoryManager) : Prop where
  mem : m.memory = ks.map (fun k => some ⟨k.1, k.2, procColor m0 k.1⟩)
      ++ List.replicate (m0.memory_size - ks.length) none
  pt : m.page_table = lruPT c0 ks 0
  queue : m.allocation_queue = []
  procs : m.processes = m0.processes
  msize : m.memory_size = m0.memory_size
  clk : m.clock = c0 + 2 * ks.length

theorem lruShape_base (m0 : MemoryManager) (F : Nat) (h0 : CleanState m0 F) :
    LruShape m0 [] m0.clock m0 := by
  rcases h0 with ⟨hsz, hmem, hpt, hq⟩
  exact ⟨by rw [hmem, hsz]; rfl, by rw [hpt]; rfl, hq, rfl, rfl, rfl⟩

/-- One more LRU fault on a fresh page while a free frame remains. -/
theorem lruShape_step (m0 : MemoryManager) (ks : List (Nat × Nat)) (c0 : Nat)
    (m : MemoryManager) (k : Nat × Nat)
    (hsh : LruShape m0 ks c0 m)
    (hlt : ks.length < m0.memory_size)
    (hnew : k ∉ ks)
    (hpid : (dictGet m0.processes k.1).isSome) :
    (allocate_page m k.1 k.2 .lru).1 = .fault
    ∧ LruShape m0 (ks ++ [k]) c0 (allocate_page m k.1 k.2 .lru).2 := by
  have hkeys : m.page_table.map Prod.fst = ks := by
    rw [hsh.pt]
    exact lruPT_keys c0 ks 0
  have hpid' : ¬ (dictGet m.processes k.1).isNone = true := by
    rw [hsh.procs, Option.isNone_iff_eq_none]
    intro hc
    rw [hc] at hpid
    cases hpid
  have hmiss : dictGet m.page_table (k.1, k.2) = none :=
    dictGet_of_keys_not_mem hkeys (by simpa using hnew)
  have hrep : m0.memory_size - ks.length
      = (m0.memory_size - (ks.length + 1)) + 1 := by omega
  have hfree : find_free_frame m.memory = some ks.length := by
    rw [hsh.mem, hrep, List.replicate_succ]
    have := find_free_frame_boundary
      (ks.map (fun k => some (⟨k.1, k.2, procColor m0 k.1⟩ : Frame)))
      (List.replicate (m0.memory_size - (ks.length + 1)) none)
      (map_some_all_isSome m0 ks)
    rw [this, List.length_map]
  have hred : allocate_page m k.1 k.2 .lru
      = (.fault, finishAlloc { m with stats_faults := m.stats_faults + 1 }
          k.1 k.2 .lru ks.length) := by
    unfold allocate_page
    rw [if_neg hpid', hmiss]
    unfold faultAlloc
    rw [show ({ m with stats_faults := m.stats_faults + 1 } :
      MemoryManager).memory = m.memory from rfl, hfree]
  rcases finishAlloc_state { m with stats_faults := m.stats_faults + 1 }
    k.1 k.2 .lru ks.length with ⟨hmem, hpt, hq, _⟩
  rw [if_neg (by intro hc; cases hc)] at hq
  rw [dictSet_of_none hmiss] at hpt
  refine ⟨by rw [hred], ?_, ?_, ?_, ?_, ?_, ?_⟩
  · show (allocate_page m k.1 k.2 .lru).2.memory = _
    rw [hred]
    show (finishAlloc _ k.1 k.2 .lru ks.length).memory = _
    rw [hmem]
    have hcol : procColor { m with stats_faults := m.stats_faults + 1 } k.1
        = procColor m0 k.1 := by
      unfold procColor
      rw [show ({ m with stats_faults := m.stats_faults + 1 } :
        MemoryManager).processes = m.processes from rfl, hsh.procs]
    rw [hcol]
    rw [show ({ m with stats_faults := m.stats_faults + 1 } :
      MemoryManager).memory = m.memory from rfl, hsh.mem, hrep, List.replicate_succ]
    rw [set_append_boundary2 _ _ _ _ ks.length (by rw [List.length_map])]
    rw [List.map_append, List.length_append, List.length_singleton, List.append_assoc]
    rfl
  · show (allocate_page m k.1 k.2 .lru).2.page_table = _
    rw [hred]
    show (finishAlloc _ k.1 k.2 .lru ks.length).page_table = _
    rw [hpt]
    rw [show ({ m with stats_faults := m.stats_faults + 1 } :
      MemoryManager).page_table = m.page_table from rfl, hsh.pt]
    rw [show ({ m with stats_faults := m.stats_faults + 1 } :
      MemoryManager).clock = m.clock from rfl, hsh.clk]
    rw [lruPT_append_one c0 k ks 0,
      show (0 : Nat) + ks.length = ks.length from by omega]
  · show (allocate_page m k.1 k.2 .lru).2.allocation_queue = []
    rw [hred]
    show (finishAlloc _ k.1 k.2 .lru ks.length).allocation_queue = []
    rw [hq]
    show m.allocation_queue = []
    exact hsh.queue
  · show (allocate_page m k.1 k.2 .lru).2.processes = _
    rw [allocate_page_processes, hsh.procs]
  · show (allocate_page m k.1 k.2 .lru).2.memory_size = _
    rw [hred]
    show (finishAlloc _ k.1 k.2 .lru ks.length).memory_size = _
    rw [(finishAlloc_state _ k.1 k.2 .lru ks.length).2.2.2]
    exact hsh.msize
  · show (allocate_page m k.1 k.2 .lru).2.clock = _
    rw [hred]
    show (finishAlloc _ k.1 k.2 .lru ks.length).clock = _
    rw [finishAlloc_clock]
    rw [show ({ m with stats_faults := m.stats_faults + 1 } :
      MemoryManager).clock = m.clock from rfl, hsh.clk, List.length_append,
      List.length_singleton]
    ring

/-- Running the LRU fault phase. -/
theorem runTrace_fill_lru (m0 : MemoryManager) (c0 : Nat) (news : List (Nat × Nat)) :
    ∀ (ks : List (Nat × Nat)) (m : MemoryManager), LruShape m0 ks c0 m →
    (ks ++ news).Nodup →
    ks.length + news.length ≤ m0.memory_size →
    (∀ k ∈ news, (dictGet m0.processes k.1).isSome) →
    (runTrace m .lru news).1 = List.replicate news.length .fault
    ∧ LruShape m0 (ks ++ news) c0 (runTrace m .lru news).2 := by
  induction news with
  | nil =>
    intro ks m hsh _ _ _
    exact ⟨rfl, by rw [List.append_nil]; exact hsh⟩
  | cons k rest ih =>
    intro ks m hsh hnd hle hp
    have hknotin : k ∉ ks := by
      intro hc
      exact (List.nodup_append.mp hnd).2.2 hc (List.mem_cons_self k rest)
    have hlt : ks.length < m0.memory_size := by
      have : (k :: rest).length = rest.length + 1 := rfl
      omega
    rcases lruShape_step m0 ks c0 m k hsh hlt hknotin
      (hp k (List.mem_cons_self k rest)) with ⟨hres, hsh'⟩
    have hnd' : ((ks ++ [k]) ++ rest).Nodup := by
      rw [List.append_assoc]
      exact hnd
    have hle' : (ks ++ [k]).length + rest.length ≤ m0.memory_size := by
      rw [List.length_append, List.length_singleton]
      have : (k :: rest).length = rest.length + 1 := rfl
      omega
    rcases ih (ks ++ [k]) (allocate_page m k.1 k.2 .lru).2 hsh' hnd' hle'
      (fun k' hk' => hp k' (List.mem_cons_of_mem k hk')) with ⟨htr, hsh''⟩
    constructor
    · show (allocate_page m k.1 k.2 .lru).1
        :: (runTrace (allocate_page m k.1 k.2 .lru).2 .lru rest).1 = _
      rw [hres, htr]
      rfl
    · show LruShape m0 (ks ++ k :: rest) c0
        (runTrace (allocate_page m k.1 k.2 .lru).2 .lru rest).2
      rw [show ks ++ k :: rest = (ks ++ [k]) ++ rest from (List.append_assoc ks [k] rest).symm]
      exact hsh''

theorem hitUpdate_of_not_mem (d : List ((Nat × Nat) × PTE)) (k : Nat × Nat) (t : Nat)
    (h : ∀ kv ∈ d, ¬ kv.1 = k) : hitUpdate d k t = d := by
  unfold hitUpdate
  have hcongr : d.map (fun kv => if kv.1 = k then (kv.1, { kv.2 with last_used := t })
      else kv) = d.map id :=
    List.map_congr_left (fun kv hkv => by rw [if_neg (h kv hkv)]; rfl)
  rw [hcongr, List.map_id]

theorem lru_go_keep (L : List ((Nat × Nat) × PTE)) (tmin : Nat) (f : Nat)
    (h : ∀ kv ∈ L, ¬ (kv.2.last_used < tmin)) :
    find_victim_lru_go L (some (tmin, f)) = some (tmin, f) := by
  induction L with
  | nil => rfl
  | cons kv rest ih =>
    unfold find_victim_lru_go
    dsimp only
    rw [if_neg (by simpa using h kv (List.mem_cons_self kv rest))]
    exact ih (fun kv' hkv' => h kv' (List.mem_cons_of_mem kv hkv'))

theorem hitUpdate_cons_self (e : PTE) (k : Nat × Nat)
    (rest : List ((Nat × Nat) × PTE)) (t : Nat)
    (hrest : ∀ kv ∈ rest, ¬ kv.1 = k) :
    hitUpdate ((k, e) :: rest) k t = (k, { e with last_used := t }) :: rest := by
  show (if k = k then (k, { e with last_used := t }) else (k, e))
      :: hitUpdate rest k t = _
  rw [if_pos rfl, hitUpdate_of_not_mem rest k t hrest]

/-- A hit on the oldest page `k1` refreshes its `last_used` to the current
clock and changes nothing else relevant. -/
theorem lruShape_hit_head (m0 : MemoryManager) (k1 : Nat × Nat)
    (krest : List (Nat × Nat)) (c0 : Nat) (m : MemoryManager)
    (hsh : LruShape m0 (k1 :: krest) c0 m)
    (hnd : (k1 :: krest).Nodup)
    (hpid : (dictGet m0.processes k1.1).isSome) :
    (allocate_page m k1.1 k1.2 .lru).1 = .hit
    ∧ (allocate_page m k1.1 k1.2 .lru).2.page_table
        = (k1, ⟨0, c0, m.clock⟩) :: lruPT c0 krest 1
    ∧ (allocate_page m k1.1 k1.2 .lru).2.memory = m.memory
    ∧ (allocate_page m k1.1 k1.2 .lru).2.processes = m.processes
    ∧ (allocate_page m k1.1 k1.2 .lru).2.memory_size = m.memory_size
    ∧ (allocate_page m k1.1 k1.2 .lru).2.allocation_queue = m.allocation_queue := by
  have hpid' : ¬ (dictGet m.processes k1.1).isNone = true := by
    rw [hsh.procs, Option.isNone_iff_eq_none]
    intro hc
    rw [hc] at hpid
    cases hpid
  have hkeys : m.page_table.map Prod.fst = k1 :: krest := by
    rw [hsh.pt]
    exact lruPT_keys c0 (k1 :: krest) 0
  rcases dictGet_of_keys_mem hkeys (List.mem_cons_self k1 krest) with ⟨e, he⟩
  have hred : allocate_page m k1.1 k1.2 .lru
      = (.hit, add_log { m with
          stats_hits := m.stats_hits + 1
          page_table := hitUpdate m.page_table (k1.1, k1.2) m.clock
          clock := m.clock + 1 } (.pageHit k1.1 k1.2)) := by
    unfold allocate_page
    rw [if_neg hpid', he]
  have hnotk1 : ∀ kv ∈ lruPT c0 krest 1, ¬ kv.1 = k1 := by
    intro kv hkv hc
    have : kv.1 ∈ krest := by
      rw [← lruPT_keys c0 krest 1]
      exact List.mem_map_of_mem Prod.fst hkv
    rw [hc] at this
    exact (List.nodup_cons.mp hnd).1 this
  refine ⟨by rw [hred], ?_, by rw [hred]; rfl, by rw [hred]; rfl,
    by rw [hred]; rfl, by rw [hred]; rfl⟩
  show (allocate_page m k1.1 k1.2 .lru).2.page_table = _
  rw [hred]
  show hitUpdate m.page_table (k1.1, k1.2) m.clock = _
  rw [hsh.pt, show ((k1.1, k1.2) : Nat × Nat) = k1 from rfl]
  show hitUpdate ((k1, ⟨0, c0, c0⟩) :: lruPT c0 krest 1) k1 m.clock = _
  rw [hitUpdate_cons_self (⟨0, c0, c0⟩ : PTE) k1 (lruPT c0 krest 1) m.clock hnotk1]

/-- The LRU fault after the hit: the victim is the *second*-oldest page `k2`
(its `last_used` is the strict minimum), so `k1` survives and `k2`'s frame 1
receives the new page. -/
theorem lruShape_evict_second (m0 : MemoryManager) (k1 k2 : Nat × Nat)
    (krest : List (Nat × Nat)) (c0 t : Nat) (mh : MemoryManager) (kf : Nat × Nat)
    (hmem : mh.memory = (k1 :: k2 :: krest).map
      (fun k => some ⟨k.1, k.2, procColor m0 k.1⟩))
    (hpt : mh.page_table = (k1, ⟨0, c0, t⟩) :: lruPT c0 (k2 :: krest) 1)
    (hprocs : mh.processes = m0.processes)
    (ht : c0 + 2 * 1 < t)
    (hnd : (k1 :: k2 :: krest).Nodup)
    (hnew : kf ∉ k1 :: k2 :: krest)
    (hpid : (dictGet m0.processes kf.1).isSome) :
    (allocate_page mh kf.1 kf.2 .lru).1 = .fault
    ∧ dictGet (allocate_page mh kf.1 kf.2 .lru).2.page_table k2 = none
    ∧ (∃ e1, dictGet (allocate_page mh kf.1 kf.2 .lru).2.page_table k1 = some e1
        ∧ e1.frame_num = 0)
    ∧ (∃ e, dictGet (allocate_page mh kf.1 kf.2 .lru).2.page_table kf = some e
        ∧ e.frame_num = 1)
    ∧ frameAt (allocate_page mh kf.1 kf.2 .lru).2 1
        = some ⟨kf.1, kf.2, procColor m0 kf.1⟩ := by
  have hek : ((kf.1, kf.2) : Nat × Nat) = kf := rfl
  have hpid' : ¬ (dictGet mh.processes kf.1).isNone = true := by
    rw [hprocs, Option.isNone_iff_eq_none]
    intro hc
    rw [hc] at hpid
    cases hpid
  have hkf1 : ¬ kf = k1 := fun hc => hnew (hc ▸ List.mem_cons_self k1 _)
  have hkf2 : ¬ kf = k2 := fun hc => hnew (by
    rw [hc]
    exact List.mem_cons_of_mem k1 (List.mem_cons_self k2 krest))
  have hk12 : ¬ k1 = k2 := by
    intro hc
    exact (List.nodup_cons.mp hnd).1 (hc ▸ List.mem_cons_self k2 krest)
  have hkeys : mh.page_table.map Prod.fst = k1 :: k2 :: krest := by
    rw [hpt]
    show k1 :: (lruPT c0 (k2 :: krest) 1).map Prod.fst = _
    rw [lruPT_keys]
  have hmiss : dictGet mh.page_table (kf.1, kf.2) = none :=
    dictGet_of_keys_not_mem hkeys (by rw [hek]; exact hnew)
  have hff : find_free_frame mh.memory = none := by
    rw [hmem]
    exact find_free_frame_all_some _ (map_some_all_isSome m0 _)
  have hvic : pickVictim { mh with stats_faults := mh.stats_faults + 1 } .lru
      = some 1 := by
    show find_victim_lru { mh with stats_faults := mh.stats_faults + 1 } = some 1
    unfold find_victim_lru
    rw [show ({ mh with stats_faults := mh.stats_faults + 1 } :
      MemoryManager).page_table = mh.page_table from rfl, hpt]
    have hgo : find_victim_lru_go
        ((k1, ⟨0, c0, t⟩) :: lruPT c0 (k2 :: krest) 1) none = some (c0 + 2 * 1, 1) := by
      show find_victim_lru_go ((k2, ⟨1, c0 + 2 * 1, c0 + 2 * 1⟩) :: lruPT c0 krest 2)
        (some (t, 0)) = _
      show find_victim_lru_go (lruPT c0 krest 2)
        (if decide (c0 + 2 * 1 < t) = true then some (c0 + 2 * 1, 1) else some (t, 0)) = _
      rw [if_pos (decide_eq_true ht)]
      exact lru_go_keep (lruPT c0 krest 2) (c0 + 2 * 1) 1
        (fun kv hkv => by have := lruPT_last_used_ge c0 krest 2 kv hkv; omega)
    rw [hgo]
    rfl
  have hfd : ({ mh with stats_faults := mh.stats_faults + 1 } :
      MemoryManager).page_table.find? (fun kv => kv.2.frame_num == 1)
      = some (k2, ⟨1, c0 + 2 * 1, c0 + 2 * 1⟩) := by
    show mh.page_table.find? _ = _
    rw [hpt]
    show ((k1, (⟨0, c0, t⟩ : PTE)) :: (k2, ⟨1, c0 + 2 * 1, c0 + 2 * 1⟩)
      :: lruPT c0 krest 2).find? _ = _
    rw [List.find?_cons_of_neg _ (fun hc => Bool.noConfusion hc),
      List.find?_cons_of_pos _ (by rfl)]
  rcases evict_state { mh with stats_faults := mh.stats_faults + 1 } .lru 1
    (k2, ⟨1, c0 + 2 * 1, c0 + 2 * 1⟩) hfd with ⟨hmem2, _, hpt2, _, hproc2, _⟩
  have hred : allocate_page mh kf.1 kf.2 .lru
      = (.fault, finishAlloc (evict { mh with stats_faults := mh.stats_faults + 1 }
          .lru 1) kf.1 kf.2 .lru 1) := by
    unfold allocate_page
    rw [if_neg hpid', hmiss]
    unfold faultAlloc
    rw [show ({ mh with stats_faults := mh.stats_faults + 1 } :
      MemoryManager).memory = mh.memory from rfl, hff, hvic]
  rcases finishAlloc_state (evict { mh with stats_faults := mh.stats_faults + 1 } .lru 1)
    kf.1 kf.2 .lru 1 with ⟨hmem3, hpt3, _, _⟩
  have hkey2 : dictGet (evict { mh with stats_faults := mh.stats_faults + 1 }
      .lru 1).page_table (kf.1, kf.2) = none := by
    rw [hpt2]
    exact dictGet_filter_none hmiss _
  have hpt3' := hpt3
  rw [dictSet_of_none hkey2] at hpt3'
  refine ⟨by rw [hred], ?_, ?_, ?_, ?_⟩
  · show dictGet (allocate_page mh kf.1 kf.2 .lru).2.page_table k2 = none
    rw [hred]
    show dictGet (finishAlloc _ kf.1 kf.2 .lru 1).page_table k2 = none
    rw [hpt3', dictGet_append]
    have h1 : dictGet (evict { mh with stats_faults := mh.stats_faults + 1 }
        .lru 1).page_table k2 = none := by
      rw [hpt2, dictGet_eq_none]
      intro kv hkv hc
      rw [List.mem_filter] at hkv
      have hne : ¬ kv.1 = (k2, (⟨1, c0 + 2 * 1, c0 + 2 * 1⟩ : PTE)).1 := by
        simpa using hkv.2
      exact hne hc
    rw [h1, dictGet_cons, if_neg (fun hc => hkf2 hc)]
    rfl
  · refine ⟨⟨0, c0, t⟩, ?_, rfl⟩
    show dictGet (allocate_page mh kf.1 kf.2 .lru).2.page_table k1 = _
    rw [hred]
    show dictGet (finishAlloc _ kf.1 kf.2 .lru 1).page_table k1 = _
    rw [hpt3', dictGet_append]
    have h1 : dictGet (evict { mh with stats_faults := mh.stats_faults + 1 }
        .lru 1).page_table k1 = some ⟨0, c0, t⟩ := by
      rw [hpt2, hpt]
      show dictGet (((k1, (⟨0, c0, t⟩ : PTE)) :: lruPT c0 (k2 :: krest) 1).filter _) k1 = _
      rw [List.filter_cons]
      rw [if_pos (by simpa using hk12)]
      rw [dictGet_cons, if_pos rfl]
    rw [h1]
  · refine ⟨⟨1, (evict { mh with stats_faults := mh.stats_faults + 1 } .lru 1).clock,
      (evict { mh with stats_faults := mh.stats_faults + 1 } .lru 1).clock⟩, ?_, rfl⟩
    show dictGet (allocate_page mh kf.1 kf.2 .lru).2.page_table kf = _
    rw [hred, ← hek]
    show dictGet (finishAlloc _ kf.1 kf.2 .lru 1).page_table (kf.1, kf.2) = _
    rw [hpt3]
    exact dictGet_dictSet_self
  · show frameAt (allocate_page mh kf.1 kf.2 .lru).2 1 = _
    rw [hred]
    show frameAt (finishAlloc _ kf.1 kf.2 .lru 1) 1 = _
    unfold frameAt
    rw [hmem3]
    have hlen : 1 < (evict { mh with stats_faults := mh.stats_faults + 1 }
        .lru 1).memory.length := by
      rw [hmem2]
      show 1 < mh.memory.length
      rw [hmem, List.length_map, List.length_cons, List.length_cons]
      omega
    rw [getD_set_self _ _ _ _ hlen]
    have hcol : procColor (evict { mh with stats_faults := mh.stats_faults + 1 }
        .lru 1) kf.1 = procColor m0 kf.1 := by
      unfold procColor
      rw [hproc2, show ({ mh with stats_faults := mh.stats_faults + 1 } :
        MemoryManager).processes = mh.processes from rfl, hprocs]
    rw [hcol]

/-- C3: starting from a clean manager with `F` frames, faulting `F ≥ 2`
distinct pages under LRU, then hitting the oldest page `k1`, the next access
to a fresh page faults and evicts the *second*-oldest page `k2` — the hit
refreshed `k1`'s `last_used`, so the LRU minimum scan selects `k2`'s frame. -/
theorem c3_lru_hit_protects_oldest (m0 : MemoryManager) (F : Nat)
    (h0 : CleanState m0 F)
    (k1 k2 : Nat × Nat) (krest : List (Nat × Nat))
    (hlen : (k1 :: k2 :: krest).length = F)
    (hnd : (k1 :: k2 :: krest).Nodup)
    (hpids : ∀ k ∈ k1 :: k2 :: krest, (dictGet m0.processes k.1).isSome)
    (kf : Nat × Nat) (hkf : kf ∉ k1 :: k2 :: krest)
    (hkfpid : (dictGet m0.processes kf.1).isSome) :
    (runTrace m0 .lru (k1 :: k2 :: krest)).1 = List.replicate F .fault
    ∧ (allocate_page (runTrace m0 .lru (k1 :: k2 :: krest)).2 k1.1 k1.2 .lru).1 = .hit
    ∧ (allocate_page (allocate_page (runTrace m0 .lru (k1 :: k2 :: krest)).2
        k1.1 k1.2 .lru).2 kf.1 kf.2 .lru).1 = .fault
    ∧ dictGet (allocate_page (allocate_page (runTrace m0 .lru (k1 :: k2 :: krest)).2
        k1.1 k1.2 .lru).2 kf.1 kf.2 .lru).2.page_table k2 = none
    ∧ (∃ e1, dictGet (allocate_page (allocate_page (runTrace m0 .lru
        (k1 :: k2 :: krest)).2 k1.1 k1.2 .lru).2 kf.1 kf.2 .lru).2.page_table k1
        = some e1 ∧ e1.frame_num = 0)
    ∧ (∃ e, dictGet (allocate_page (allocate_page (runTrace m0 .lru
        (k1 :: k2 :: krest)).2 k1.1 k1.2 .lru).2 kf.1 kf.2 .lru).2.page_table kf
        = some e ∧ e.frame_num = 1)
    ∧ frameAt (allocate_page (allocate_page (runTrace m0 .lru (k1 :: k2 :: krest)).2
        k1.1 k1.2 .lru).2 kf.1 kf.2 .lru).2 1
      = some ⟨kf.1, kf.2, procColor m0 kf.1⟩ := by
  have hbase : LruShape m0 [] m0.clock m0 := lruShape_base m0 F h0
  have hle : List.length ([] : List (Nat × Nat)) + (k1 :: k2 :: krest).length
      ≤ m0.memory_size := by
    have hms := h0.1
    simp only [List.length_nil, Nat.zero_add]
    omega
  rcases runTrace_fill_lru m0 m0.clock (k1 :: k2 :: krest) [] m0 hbase hnd hle hpids with
    ⟨htr1, hsh1⟩
  have hsh1' : LruShape m0 (k1 :: k2 :: krest) m0.clock
      (runTrace m0 .lru (k1 :: k2 :: krest)).2 := hsh1
  rcases lruShape_hit_head m0 k1 (k2 :: krest) m0.clock
    (runTrace m0 .lru (k1 :: k2 :: krest)).2 hsh1' hnd
    (hpids k1 (List.mem_cons_self k1 _)) with
    ⟨hres2, hpt2, hmem2, hproc2, _, _⟩
  have hfull : m0.memory_size - (k1 :: k2 :: krest).length = 0 := by
    have hms := h0.1
    omega
  have hmemfull : (allocate_page (runTrace m0 .lru (k1 :: k2 :: krest)).2
      k1.1 k1.2 .lru).2.memory = (k1 :: k2 :: krest).map
      (fun k => some ⟨k.1, k.2, procColor m0 k.1⟩) := by
    rw [hmem2, hsh1'.mem, hfull]
    rw [show List.replicate 0 (none : Option Frame) = [] from rfl, List.append_nil]
  have ht : m0.clock + 2 * 1 < (runTrace m0 .lru (k1 :: k2 :: krest)).2.clock := by
    rw [hsh1'.clk, List.length_cons, List.length_cons]
    omega
  rcases lruShape_evict_second m0 k1 k2 krest m0.clock
    (runTrace m0 .lru (k1 :: k2 :: krest)).2.clock
    (allocate_page (runTrace m0 .lru (k1 :: k2 :: krest)).2 k1.1 k1.2 .lru).2 kf
    hmemfull hpt2 (hproc2.trans hsh1'.procs) ht hnd hkf hkfpid with
    ⟨hres3, hc1, hc2, hc3, hc4⟩
  rw [hlen] at htr1
  exact ⟨htr1, hres2, hres3, hc1, hc2, hc3, hc4⟩

/-- C3 witness: two frames, P1 faults pages 0 and 1 under LRU, hits page 0,
then P2's page 0 faults and evicts P1-page-1 (the second-oldest) from frame 1,
while the refreshed P1-page-0 stays in frame 0. -/
theorem c3_lru_hit_protects_oldest_witness :
    (runTrace (runOps 2 [.create 2, .create 1]) .lru [(1, 0), (1, 1)]).1
      = List.replicate 2 .fault
    ∧ (allocate_page (runTrace (runOps 2 [.create 2, .create 1])
        .lru [(1, 0), (1, 1)]).2 1 0 .lru).1 = .hit
    ∧ (allocate_page (allocate_page (runTrace (runOps 2 [.create 2, .create 1])
        .lru [(1, 0), (1, 1)]).2 1 0 .lru).2 2 0 .lru).1 = .fault
    ∧ dictGet (allocate_page (allocate_page (runTrace (runOps 2 [.create 2, .create 1])
        .lru [(1, 0), (1, 1)]).2 1 0 .lru).2 2 0 .lru).2.page_table (1, 1) = none
    ∧ frameAt (allocate_page (allocate_page (runTrace (runOps 2 [.create 2, .create 1])
        .lru [(1, 0), (1, 1)]).2 1 0 .lru).2 2 0 .lru).2 1
      = some ⟨2, 0, procColor (runOps 2 [.create 2, .create 1]) 2⟩ := by
  have h := c3_lru_hit_protects_oldest (runOps 2 [.create 2, .create 1]) 2
    ⟨by decide, by decide, by decide, by decide⟩
    (1, 0) (1, 1) [] (by decide) (by decide) (by decide) (2, 0) (by decide) (by decide)
  exact ⟨h.1, h.2.1, h.2.2.1, h.2.2.2.1, h.2.2.2.2.2.2⟩
